import Mathlib

/-!
Verification of the jpt_news repository: a shallow embedding of its
normalization, taxonomy-canonicalization, filtering and CSV-merge logic,
with theorems settling the specification's claims.

Strings are modelled as `List Char`.  Python's ASCII-range case functions
coincide with Lean's `Char.toUpper` / `Char.toLower`; the only non-ASCII
character the code treats specially is the subscript two '₂'.
-/

set_option maxRecDepth 4096

abbrev Str := List Char

/-- Convert a Lean string literal to the `List Char` representation. -/
def strL (s : String) : Str := s.data

/-- Python `str` whitespace (the characters `str.split`/`str.strip`/`\s`
    treat as whitespace, restricted to the ASCII range). -/
def pyWhite (c : Char) : Bool :=
  c = ' ' || c = '\t' || c = '\n' || c = '\r' || c = '\x0b' || c = '\x0c'

/-- Python `str.strip()`: drop whitespace from both ends. -/
def stripStr (l : Str) : Str :=
  ((l.dropWhile pyWhite).reverse.dropWhile pyWhite).reverse

/-- Python `str.split()` with no argument: split on whitespace runs,
    dropping empty pieces. -/
def pySplitWs (l : Str) : List Str :=
  (l.foldr
    (fun c acc =>
      if pyWhite c then [] :: acc
      else
        match acc with
        | [] => [[c]]
        | p :: ps => (c :: p) :: ps)
    []).filter (fun p => p ≠ [])

/-- Join string pieces with single spaces (`" ".join(...)`). -/
def joinSpace (ps : List Str) : Str := (ps.intersperse [' ']).flatten

/-- app.py `_normalize_text`: `" ".join(str(x).split()).strip()`. -/
def normalizeText (l : Str) : Str := stripStr (joinSpace (pySplitWs l))

/-- The two separator characters kept by `WORD_SPLIT_RE` (hyphen, slash). -/
def isDashSlash (c : Char) : Bool := c = '-' || c = '/'

def headWhite : Str → Bool
  | [] => false
  | d :: _ => pyWhite d

def headWord : Str → Bool
  | [] => false
  | d :: _ => !pyWhite d && !isDashSlash d

/-- One step of re-splitting: group whitespace runs together, keep each
    `-` or `/` as its own piece, and group remaining characters into
    maximal word pieces.  This reproduces `WORD_SPLIT_RE.split` with
    captured separators, except that the empty tokens the regex split
    inserts between adjacent separators are omitted (they are mapped to
    themselves by `_smart_title_token` and so do not affect the result). -/
def splitKeepStep (c : Char) (acc : List Str) : List Str :=
  if isDashSlash c then [c] :: acc
  else if pyWhite c then
    match acc with
    | p :: ps => if headWhite p then (c :: p) :: ps else [c] :: p :: ps
    | [] => [[c]]
  else
    match acc with
    | p :: ps => if headWord p then (c :: p) :: ps else [c] :: p :: ps
    | [] => [[c]]

/-- app.py `WORD_SPLIT_RE.split(s)` (keeping separators, see above). -/
def splitKeep (l : Str) : List Str := l.foldr splitKeepStep []

def isAsciiLetter (c : Char) : Bool :=
  ('A' ≤ c && c ≤ 'Z') || ('a' ≤ c && c ≤ 'z')

/-- Python `\d` also matches Unicode decimal digits; the subscript two is
    the only such character this code manipulates, so the model treats
    `'₂'` together with the ASCII digits. -/
def isPyDigit (c : Char) : Bool := c.isDigit || c = '₂'

/-- Full match of `[A-Za-z]{1,4}\d{1,3}`.  Since letters and digits are
    disjoint, the regex matches exactly when the maximal letter prefix has
    length 1..4 and the entire remainder is 1..3 digits. -/
def matchLetDig (l : Str) : Bool :=
  let letters := l.takeWhile isAsciiLetter
  let rest := l.drop letters.length
  decide (1 ≤ letters.length) && decide (letters.length ≤ 4) &&
    decide (1 ≤ rest.length) && decide (rest.length ≤ 3) && rest.all isPyDigit

/-- Full match of `[A-Z]{2,}`. -/
def allCapsAZ (l : Str) : Bool :=
  decide (2 ≤ l.length) && l.all (fun c => 'A' ≤ c && c ≤ 'Z')

/-- app.py: `re.search(r"[&.]", t) and re.search(r"[A-Za-z]", t)`. -/
def hasAmpDot (l : Str) : Bool :=
  l.any (fun c => c = '&' || c = '.') && l.any isAsciiLetter

def upperStr (l : Str) : Str := l.map Char.toUpper

def lowerStr (l : Str) : Str := l.map Char.toLower

/-- app.py `BASE_ACRONYMS`. -/
def baseAcronyms : List Str :=
  [strL "AI", strL "ML", strL "US", strL "UK", strL "UAE", strL "LNG",
   strL "CCS", strL "CO2", strL "CO₂", strL "M&A", strL "HSE", strL "OPEC",
   strL "NGL", strL "FPSO", strL "FLNG", strL "EOR", strL "IOR", strL "NPT",
   strL "R&D", strL "API", strL "ISO", strL "NACE", strL "IIoT", strL "OT",
   strL "IT", strL "SCADA", strL "PLC", strL "DCS", strL "ESG", strL "GHG"]

/-- app.py `_looks_like_acronym`. -/
def looksLikeAcronym (token : Str) (acronyms : List Str) : Bool :=
  if token = [] then false
  else
    let t := stripStr token
    acronyms.contains (upperStr t) || matchLetDig t || allCapsAZ t || hasAmpDot t

/-- app.py `_smart_title_token`. -/
def smartTitleToken (token : Str) (acronyms : List Str) : Str :=
  let raw := stripStr token
  if raw = [] then token
  else if raw.all pyWhite || raw = ['-'] || raw = ['/'] then raw
  else if looksLikeAcronym raw acronyms then
    let up := upperStr raw
    if up = strL "CO₂" then strL "CO2" else up
  else if (raw.drop 1).any Char.isUpper && raw.any Char.isLower then raw
  else
    match raw with
    | [] => []
    | c :: cs => Char.toUpper c :: lowerStr cs

/-- Python `str.replace(pat, rep)` for a three-character pattern:
    left-to-right, non-overlapping, the replacement is not rescanned. -/
def replace3 (a b c : Char) (r : Str) : Str → Str
  | x :: y :: z :: rest =>
    if x = a && y = b && z = c then r ++ replace3 a b c r rest
    else x :: replace3 a b c r (y :: z :: rest)
  | l => l

/-- Replace maximal whitespace runs with a single space:
    `re.sub(r"\s+", " ", out)`. -/
def collapseWs : Str → Str
  | [] => []
  | [c] => if pyWhite c then [' '] else [c]
  | c :: d :: rest =>
    if pyWhite c then
      if pyWhite d then collapseWs (d :: rest)
      else ' ' :: collapseWs (d :: rest)
    else c :: collapseWs (d :: rest)

/-- app.py `normalize_phrase`. -/
def normalizePhrase (s : Str) (acronyms : List Str) : Str :=
  let s1 := normalizeText s
  if s1 = [] then []
  else
    let parts := splitKeep s1
    let out := (parts.map (fun p => smartTitleToken p acronyms)).flatten
    let out := stripStr (collapseWs out)
    let out := replace3 'C' 'o' '2' (strL "CO2") out
    replace3 'C' 'o' '₂' (strL "CO2") out

/-- app.py `build_acronym_set` (the set is modelled as a list; only
    membership is ever consulted). -/
def buildAcronymSet (masterTags : List Str) : List Str :=
  baseAcronyms ++
    masterTags.foldr
      (fun t acc =>
        let t := normalizeText t
        if t = [] then acc
        else
          let add1 :=
            decide (2 ≤ t.length) &&
              t.all (fun c =>
                ('A' ≤ c && c ≤ 'Z') || c.isDigit || c = '&' || c = '.' ||
                  c = '/' || c = '-') &&
              t.any (fun c => 'A' ≤ c && c ≤ 'Z')
          let add2 := hasAmpDot t
          (if add1 then [upperStr t] else []) ++
            (if add2 then [upperStr t] else []) ++ acc)
      []

/-- app.py `build_canonical_tag_map`: a Python dict built by iterating
    `master_tags` in order (later assignments overwrite earlier ones), so
    lookup is modelled as first-match over the reversed association list. -/
def canonicalTagMap (masterTags : List Str) (acronyms : List Str) :
    List (Str × Str) :=
  ((masterTags.filterMap (fun t =>
      let key := lowerStr (normalizeText t)
      if key = [] then none
      else some (key, normalizePhrase t acronyms)))).reverse

def lookupAssoc (m : List (Str × Str)) (k : Str) : Option Str :=
  (m.find? (fun p => p.1 = k)).map Prod.snd

/-- app.py `load_data.norm_tag`. -/
def normTag (canonMap : List (Str × Str)) (acronyms : List Str) (x : Str) :
    Str :=
  let x0 := normalizeText x
  if x0 = [] then []
  else
    match lookupAssoc canonMap (lowerStr x0) with
    | some v => v
    | none => normalizePhrase x0 acronyms

/-- The viewer as shipped has no `all_tags.csv` in the repository, so
    `load_master_tags` returns the empty list: empty canonical map and the
    base acronym set. -/
def appAcronyms : List Str := buildAcronymSet []

def normTagApp (x : Str) : Str := normTag (canonicalTagMap [] appAcronyms) appAcronyms x

/-- app.py `load_data`: `tags_list` built from the raw tag list. -/
def tagsListOf (raw : List Str) : List Str :=
  (raw.map normTagApp).filter (fun t => t ≠ [])

/-- app.py `COUNTRY_ABBREV`, in dict insertion order. -/
def countryAbbrev : List (Str × Str) :=
  [(strL "US", strL "US"), (strL "U.S.", strL "US"), (strL "USA", strL "US"),
   (strL "United States", strL "US"),
   (strL "United States Of America", strL "US"), (strL "UK", strL "UK"),
   (strL "U.K.", strL "UK"), (strL "United Kingdom", strL "UK"),
   (strL "Great Britain", strL "UK"), (strL "Britain", strL "UK"),
   (strL "UAE", strL "UAE"), (strL "U.A.E.", strL "UAE"),
   (strL "United Arab Emirates", strL "UAE")]

/-- app.py `build_country_set_cached`: the `pycountry` import is an
    external dependency; its failure path (the `except` branch in the
    source) populates the hardcoded fallback set, which is what is
    modelled here, together with the initial manual additions. -/
def countrySetFallback : List Str :=
  [strL "US", strL "UK", strL "UAE", strL "Canada", strL "Mexico",
   strL "Brazil", strL "Argentina", strL "Norway", strL "France",
   strL "Germany", strL "Italy", strL "Spain", strL "Australia",
   strL "India", strL "China", strL "Japan", strL "Saudi Arabia",
   strL "Qatar", strL "Kuwait", strL "Oman", strL "Iraq", strL "Iran",
   strL "Libya", strL "Nigeria", strL "Angola", strL "Egypt"]

/-- app.py `canonical_country_from_tag`: exact match against the
    abbreviation table first, then a case-insensitive scan in
    insertion order. -/
def canonicalCountryFromTag (tag : Str) : Option Str :=
  let t := normalizeText tag
  if t = [] then none
  else
    match lookupAssoc countryAbbrev t with
    | some v => some v
    | none =>
      (countryAbbrev.find? (fun p => lowerStr t = lowerStr p.1)).map Prod.snd

/-- Lexicographic (code-point) order on strings, as Python `sorted` uses. -/
def lexLeB : Str → Str → Bool
  | [], _ => true
  | _ :: _, [] => false
  | a :: as, b :: bs => if a = b then lexLeB as bs else decide (a < b)

def lexLeP (a b : Str) : Prop := lexLeB a b = true

instance : DecidableRel lexLeP := fun a b =>
  inferInstanceAs (Decidable (lexLeB a b = true))

/-- app.py `load_data.countries_from_tags`: collect abbreviation-table
    matches and recognized-country-set matches over all tags, then return
    `sorted(set)` — modelled as dedup followed by a sort. -/
def countriesFromTags (tags : List Str) : List Str :=
  let found :=
    tags.filterMap canonicalCountryFromTag ++
      tags.filter (fun t => countrySetFallback.contains t)
  List.insertionSort lexLeP found.dedup

/-- One row of the article dataset with the expected columns
    (`EXPECTED_COLS` of scripts/merge_jpt_csv.py). -/
structure Row where
  url : Str
  title : Str
  excerpt : Str
  published_date : Str
  topics : Str
  tags : Str
  scraped_at : Str
deriving DecidableEq, Repr

/-- pandas `drop_duplicates(subset=[key], keep="last")`: keep a row iff no
    later row has the same key; original order preserved. -/
def dropDupLastBy {α : Type} [DecidableEq α] (key : Row → α) :
    List Row → List Row
  | [] => []
  | r :: rest =>
    if rest.any (fun q => key q = key r) then dropDupLastBy key rest
    else r :: dropDupLastBy key rest

/-- Parse two ASCII digits. -/
def d2 (a b : Char) : Option Nat :=
  if a.isDigit && b.isDigit then some (10 * (a.toNat - 48) + (b.toNat - 48))
  else none

/-- Parse four ASCII digits. -/
def d4 (a b c d : Char) : Option Nat :=
  match d2 a b, d2 c d with
  | some x, some y => some (100 * x + y)
  | _, _ => none

/-- Encode a date-time so that the usual order on timestamps agrees with
    the order on the encodings. -/
def encodeDT (y mo d h mi s : Nat) : Nat :=
  ((((y * 13 + mo) * 32 + d) * 24 + h) * 60 + mi) * 60 + s

/-- Stand-in for `pd.to_datetime(..., errors="coerce")` on one value: the
    dataset's ISO forms `YYYY-MM-DD` and `YYYY-MM-DD[ T]HH:MM:SS` parse;
    anything else coerces to NaT (`none`). -/
def parseDT : Str → Option Nat
  | [y1, y2, y3, y4, '-', m1, m2, '-', dd1, dd2] =>
    match d4 y1 y2 y3 y4, d2 m1 m2, d2 dd1 dd2 with
    | some y, some mo, some d =>
      if 1 ≤ mo && mo ≤ 12 && 1 ≤ d && d ≤ 31 then
        some (encodeDT y mo d 0 0 0)
      else none
    | _, _, _ => none
  | [y1, y2, y3, y4, '-', m1, m2, '-', dd1, dd2, sep, h1, h2, ':', mi1, mi2,
      ':', s1, s2] =>
    match d4 y1 y2 y3 y4, d2 m1 m2, d2 dd1 dd2, d2 h1 h2, d2 mi1 mi2,
        d2 s1 s2 with
    | some y, some mo, some d, some h, some mi, some s =>
      if (sep = ' ' || sep = 'T') && 1 ≤ mo && mo ≤ 12 && 1 ≤ d && d ≤ 31 &&
          h ≤ 23 && mi ≤ 59 && s ≤ 59 then
        some (encodeDT y mo d h mi s)
      else none
    | _, _, _, _, _, _ => none
  | _ => none

/-- Viewer url normalization step of app.py `load_data`
    (`df["url"].map(_normalize_text)` followed by dropping falsy urls). -/
def viewerNorm (rows : List Row) : List Row :=
  (rows.map (fun r => { r with url := normalizeText r.url })).filter
    (fun r => r.url ≠ [])

def parsePub (r : Row) : Option Nat := parseDT r.published_date

def parseScr (r : Row) : Option Nat := parseDT r.scraped_at

/-- Descending order on parsed published dates with NaT sorted last
    (`sort_values("published_date", ascending=False, na_position="last")`);
    the model's sort is stable, which fixes the order pandas leaves
    unspecified among equal keys. -/
def pubDescLe (r1 r2 : Row) : Prop :=
  (match parsePub r1, parsePub r2 with
    | some a, some b => decide (b ≤ a)
    | some _, none => true
    | none, some _ => false
    | none, none => true) = true

instance : DecidableRel pubDescLe := fun _r1 _r2 =>
  inferInstanceAs (Decidable (_ = true))

/-- app.py `load_data` rows pipeline as far as it decides which rows
    survive: normalize urls, drop empty urls, de-duplicate by url keeping
    the last occurrence, then sort newest-first by `published_date`. -/
def loadDataRows (rows : List Row) : List Row :=
  List.insertionSort pubDescLe
    (dropDupLastBy (fun r => r.url) (viewerNorm rows))

/-- Substring test (`k in t` for Python strings). -/
def occursIn (p : Str) : Str → Bool
  | [] => p.isPrefixOf []
  | c :: rest => p.isPrefixOf (c :: rest) || occursIn p rest

/-- app.py `match_keywords`. -/
def matchKeywords (text : Str) (keywords : List Str) (anyMode : Bool) :
    Bool :=
  if keywords = [] then true
  else
    let t := lowerStr text
    let ks := keywords.map lowerStr
    if anyMode then ks.any (fun k => occursIn k t)
    else ks.all (fun k => occursIn k t)

/-- app.py `must_include_all`. -/
def mustIncludeAll (selected rowValues : List Str) : Bool :=
  if selected = [] then true
  else selected.all (fun s => rowValues.contains s)

/-- app.py `must_include_any`. -/
def mustIncludeAny (selected rowValues : List Str) : Bool :=
  if selected = [] then true
  else selected.any (fun s => rowValues.contains s)

/-- app.py `apply_match` (mode is "OR" or "AND"). -/
def applyMatch (selected rowValues : List Str) (mode : Str) : Bool :=
  if mode = strL "AND" then mustIncludeAll selected rowValues
  else mustIncludeAny selected rowValues

/-- One display row as `apply_filters` consumes it. -/
structure FRow where
  published_date : Option Nat
  title : Str
  excerpt : Str
  topics_list : List Str
  tags_list : List Str
  countries_list : List Str

/-- `Series.between(start, end, inclusive="both")`; a NaT date is never
    inside the range. -/
def betweenDate (d : Option Nat) (s e : Nat) : Bool :=
  match d with
  | some x => decide (s ≤ x) && decide (x ≤ e)
  | none => false

/-- app.py `apply_filters`, one Boolean per row of the frame. -/
def applyFilters (df : List FRow) (startD endD : Nat)
    (keywordList : List Str) (anyMode : Bool)
    (selTopics selTags selCountries : List Str)
    (topicsMode tagsMode countriesMode : Str) : List Bool :=
  df.map (fun r =>
    let mask := true
    let mask := mask && betweenDate r.published_date startD endD
    let mask :=
      if keywordList ≠ [] then
        mask && matchKeywords (r.title ++ [' '] ++ r.excerpt) keywordList anyMode
      else mask
    let mask :=
      if selTopics ≠ [] then mask && applyMatch selTopics r.topics_list topicsMode
      else mask
    let mask :=
      if selTags ≠ [] then mask && applyMatch selTags r.tags_list tagsMode
      else mask
    let mask :=
      if selCountries ≠ [] then
        mask && applyMatch selCountries r.countries_list countriesMode
      else mask
    mask)

/-! ## scripts/merge_jpt_csv.py -/

def MIN_UNIQUE_URLS : Nat := 5000

/-- `pd.Timestamp("2014-01-01")`. -/
def MAX_ALLOWED_MIN_DATE : Nat := encodeDT 2014 1 1 0 0 0

def stripRow (r : Row) : Row :=
  { url := stripStr r.url, title := stripStr r.title,
    excerpt := stripStr r.excerpt,
    published_date := stripStr r.published_date,
    topics := stripStr r.topics, tags := stripStr r.tags,
    scraped_at := stripStr r.scraped_at }

/-- merge_jpt_csv `_records_to_df`: ensure the expected columns (the
    `Row` structure already carries them, missing values being empty
    strings), strip every field, drop rows whose url is empty. -/
def recordsToDf (rows : List Row) : List Row :=
  (rows.map stripRow).filter (fun r => r.url ≠ [])

/-- `df_master["url"].nunique()`: number of distinct urls. -/
def distinctUrls (l : List Row) : Nat := ((l.map Row.url).dedup).length

/-- `pd.to_datetime(df["published_date"]).min()` skipping NaT. -/
def minPub (l : List Row) : Option Nat := (l.filterMap parsePub).min?

inductive GuardErr
  | parsedEmpty
  | tooSmall
  | recentOnly
deriving DecidableEq, Repr

/-- merge_jpt_csv `_guard_master`: the three RuntimeError aborts, in
    source order. -/
def guardMaster (old : List Row) : Option GuardErr :=
  if old = [] then some .parsedEmpty
  else if distinctUrls old < MIN_UNIQUE_URLS then some .tooSmall
  else
    match minPub old with
    | some d => if MAX_ALLOWED_MIN_DATE < d then some .recentOnly else none
    | none => none

/-- Ascending sort key of `sort_values(["url", "_scraped"])` with the
    default `na_position="last"`: urls lexicographically, then parsed
    `scraped_at` ascending with NaT after every parsed value. -/
def urlScrLe (r1 r2 : Row) : Prop :=
  (if r1.url = r2.url then
      match parseScr r1, parseScr r2 with
      | some a, some b => decide (a ≤ b)
      | some _, none => true
      | none, some _ => false
      | none, none => true
    else lexLeB r1.url r2.url) = true

instance : DecidableRel urlScrLe := fun _r1 _r2 =>
  inferInstanceAs (Decidable (_ = true))

/-- merge_jpt_csv lines 106-115: concatenate master before new, sort by
    (url, parsed scraped_at) ascending with NaT last, drop url duplicates
    keeping the last, then sort newest-first by published_date. -/
def mergeCombine (old new : List Row) : List Row :=
  List.insertionSort pubDescLe
    (dropDupLastBy (fun r => r.url)
      (List.insertionSort urlScrLe (old ++ new)))

inductive FPath
  | master
  | tmpMaster
  | newBatch
deriving DecidableEq, Repr

/-- A filesystem effect performed by a merge run, with the content that a
    `to_csv` serializes. -/
inductive FsOp (α : Type)
  | writeCsv (p : FPath) (content : α)
  | rename (src dst : FPath)
  | unlink (p : FPath)
deriving DecidableEq, Repr

inductive MergeOutcome
  | wrote (out : List Row)
  | noop
  | guardError (e : GuardErr)
deriving DecidableEq, Repr

def isGuardError : MergeOutcome → Bool
  | .guardError _ => true
  | _ => false

/-- Result of one merge_jpt_csv run: the outcome, the master file's
    content after the run (`none` = file absent), and the filesystem
    effects performed. -/
structure JptResult where
  outcome : MergeOutcome
  masterAfter : Option (List Row)
  trace : List (FsOp (List Row))
deriving Repr

/-- merge_jpt_csv `main`.  The two file arguments are the on-disk
    contents as the csv reader returns them (`none` = file missing, and
    `_read_with_csv_module` then yields no rows). -/
def runMergeJpt (masterFile newFile : Option (List Row)) : JptResult :=
  let oldRows := masterFile.getD []
  let newRows := newFile.getD []
  let old := recordsToDf oldRows
  let newDf := recordsToDf newRows
  if old = [] && newDf = [] then
    { outcome := .noop, masterAfter := masterFile, trace := [] }
  else
    match if masterFile.isSome then guardMaster old else none with
    | some e =>
      { outcome := .guardError e, masterAfter := masterFile, trace := [] }
    | none =>
      let out := mergeCombine old newDf
      { outcome := .wrote out, masterAfter := some out,
        trace := [.writeCsv .master out] }

/-! ## scripts/merge_master.py and scripts/update_csv.py

These read whole CSVs with `pd.read_csv`, so rows live in data frames
whose column sets matter; a frame is a column list plus one association
list per row (an absent key is a NaN cell). -/

structure Df where
  cols : List Str
  rows : List (List (Str × Str))
deriving DecidableEq, Repr

def lookupCell (row : List (Str × Str)) (c : Str) : Option Str :=
  (row.find? (fun p => p.1 = c)).map Prod.snd

def hasCol (d : Df) (c : Str) : Bool := d.cols.contains c

/-- `df[c].nunique()`: distinct non-NaN values. -/
def nuniqueCol (d : Df) (c : Str) : Nat :=
  ((d.rows.filterMap (fun r => lookupCell r c)).dedup).length

/-- `pd.concat([a, b], ignore_index=True)`: union of columns, rows of `a`
    before rows of `b`. -/
def concatDf (a b : Df) : Df :=
  { cols := a.cols ++ b.cols.filter (fun c => !a.cols.contains c),
    rows := a.rows ++ b.rows }

/-- Ascending order on one row's parsed `scraped_at` with NaT last;
    merge_master sorts with `kind="mergesort"` (stable), matching the
    model's stable sort. -/
def dfScrLe (r1 r2 : List (Str × Str)) : Prop :=
  (match (lookupCell r1 (strL "scraped_at")).bind parseDT,
      (lookupCell r2 (strL "scraped_at")).bind parseDT with
    | some a, some b => decide (a ≤ b)
    | some _, none => true
    | none, some _ => false
    | none, none => true) = true

instance : DecidableRel dfScrLe := fun _r1 _r2 =>
  inferInstanceAs (Decidable (_ = true))

/-- Descending order on (parsed published_date, parsed scraped_at), NaT
    last, for the final `sort_values(..., ascending=[False, False])`. -/
def dfPubScrLe (r1 r2 : List (Str × Str)) : Prop :=
  (let p1 := (lookupCell r1 (strL "published_date")).bind parseDT
   let p2 := (lookupCell r2 (strL "published_date")).bind parseDT
   if p1 = p2 then
     match (lookupCell r1 (strL "scraped_at")).bind parseDT,
         (lookupCell r2 (strL "scraped_at")).bind parseDT with
     | some a, some b => decide (b ≤ a)
     | some _, none => true
     | none, some _ => false
     | none, none => true
   else
     match p1, p2 with
     | some a, some b => decide (b ≤ a)
     | some _, none => true
     | none, _ => false) = true

instance : DecidableRel dfPubScrLe := fun _r1 _r2 =>
  inferInstanceAs (Decidable (_ = true))

/-- `drop_duplicates(subset=["url"], keep="last")` on a frame; pandas
    treats NaN keys as equal to one another. -/
def dfDropDupLastUrl : List (List (Str × Str)) → List (List (Str × Str))
  | [] => []
  | r :: rest =>
    if rest.any (fun q => lookupCell q (strL "url") = lookupCell r (strL "url"))
    then dfDropDupLastUrl rest
    else r :: dfDropDupLastUrl rest

/-- merge_master lines 45-73: concat, recency sort (when `scraped_at`
    exists), dedup by url keeping last, cosmetic final ordering.  The
    `pd.to_datetime` column conversions only change how values are
    serialized; they are modelled as the parsed sort keys. -/
def mmProposed (masterFile : Option Df) (newDf : Df) : Df :=
  let oldDf := masterFile.getD { cols := [], rows := [] }
  let combined := concatDf oldDf newDf
  let sortedRows :=
    if hasCol combined (strL "scraped_at") then
      List.insertionSort dfScrLe combined.rows
    else combined.rows
  let merged := dfDropDupLastUrl sortedRows
  let merged :=
    if hasCol combined (strL "published_date") then
      List.insertionSort dfPubScrLe merged
    else if hasCol combined (strL "scraped_at") then
      List.insertionSort (fun a b => dfScrLe b a) merged
    else merged
  { cols := combined.cols, rows := merged }

/-- merge_master lines 39-43 (`old_unique`). -/
def mmOldUnique (masterFile : Option Df) : Nat :=
  let oldDf := masterFile.getD { cols := [], rows := [] }
  if oldDf.rows ≠ [] && hasCol oldDf (strL "url") then
    nuniqueCol oldDf (strL "url")
  else oldDf.rows.length

inductive MMOutcome
  | noNew
  | schemaError
  | shrinkError
  | wrote (out : Df)
deriving DecidableEq, Repr

/-- merge_master `main` (`NEW_WINS_ON_DUPLICATE`, `GUARD_AGAINST_SHRINK`
    and `DELETE_NEW_AFTER_MERGE` all hold in the source). -/
def runMergeMaster (masterFile newFile : Option Df) :
    MMOutcome × List (FsOp Df) :=
  match newFile with
  | none => (.noNew, [])
  | some newDf =>
    if !hasCol newDf (strL "url") then (.schemaError, [])
    else
      let merged := mmProposed masterFile newDf
      if masterFile.isSome && decide (0 < mmOldUnique masterFile) &&
          decide (nuniqueCol merged (strL "url") < mmOldUnique masterFile) then
        (.shrinkError, [])
      else
        (.wrote merged,
         [.writeCsv .tmpMaster merged, .rename .tmpMaster .master,
          .unlink .newBatch])

inductive MDOutcome
  | renamedNew
  | nothing
  | schemaError
  | wrote (out : Df)
deriving DecidableEq, Repr

def isWroteMD : MDOutcome → Bool
  | .wrote _ => true
  | _ => false

/-- update_csv `merge_dedupe`.  The sorts use pandas' default unstable
    quicksort; the model fixes the order among equal keys with a stable
    sort.  On success the serialized output goes directly to the master
    path (`combined.to_csv(CSV_PATH)`), with no temporary file. -/
def runMergeDedupe (masterFile newFile : Option Df) :
    MDOutcome × List (FsOp Df) :=
  match masterFile, newFile with
  | none, some _ => (.renamedNew, [.rename .newBatch .master])
  | none, none => (.nothing, [])
  | some _, none => (.nothing, [])
  | some oldDf, some newDf =>
    if !hasCol newDf (strL "url") then (.schemaError, [])
    else
      let combined := concatDf oldDf newDf
      let sortedRows :=
        if hasCol combined (strL "scraped_at") then
          List.insertionSort dfScrLe combined.rows
        else combined.rows
      let merged := dfDropDupLastUrl sortedRows
      let merged :=
        if hasCol combined (strL "published_date") then
          List.insertionSort dfPubScrLe merged
        else merged
      let out : Df := { cols := combined.cols, rows := merged }
      (.wrote out, [.writeCsv .master out])

def isWroteMM : MMOutcome → Bool
  | .wrote _ => true
  | _ => false

/-! ## Auxiliary predicates used to reason about `normalize_phrase` -/

/-- A character that belongs to a word piece of `WORD_SPLIT_RE.split`. -/
def wordChar (c : Char) : Bool := !pyWhite c && !isDashSlash c

def isWsPart (p : Str) : Bool := !p.isEmpty && p.all pyWhite

def isWordPart (p : Str) : Bool := !p.isEmpty && p.all wordChar

/-- Whitespace appears only as a single interior space character. -/
def singleSpaced : Str → Bool
  | [] => true
  | [c] => !pyWhite c || c = ' '
  | c :: d :: r => (!pyWhite c || (c = ' ' && !pyWhite d)) && singleSpaced (d :: r)

/-- Shape of the piece lists handled by the canonicalizer: every piece is
    a word, a lone hyphen or slash, or a lone space, and neither two word
    pieces nor two space pieces are adjacent. -/
def partsGood : List Str → Bool
  | [] => true
  | [p] => isWordPart p || p = ['-'] || p = ['/'] || p = [' ']
  | p :: q :: ps =>
    (isWordPart p || p = ['-'] || p = ['/'] || p = [' ']) &&
      !(isWordPart p && isWordPart q) && !(p = [' '] && q = [' ']) &&
      partsGood (q :: ps)

/-! ## Concrete inputs used by the per-claim theorems -/

/-- A well-formed master row (used to exercise the guard). -/
def c1Row : Row :=
  { url := strL "https://a.example/x", title := strL "t", excerpt := [],
    published_date := strL "2013-05-01", topics := [], tags := [],
    scraped_at := strL "2024-01-01 00:00:00" }

/-- Master-side record of the C2 failing input: parsable `scraped_at`. -/
def c2RowMaster : Row :=
  { url := strL "u", title := strL "old title", excerpt := [],
    published_date := strL "2024-01-02", topics := [], tags := [],
    scraped_at := strL "2024-01-01 00:00:00" }

/-- New-batch record of the C2 failing input: same url, blank
    (unparsable) `scraped_at`. -/
def c2RowNew : Row :=
  { url := strL "u", title := strL "new title", excerpt := [],
    published_date := strL "2024-01-03", topics := [], tags := [],
    scraped_at := [] }

def c3RowNew : Row :=
  { url := strL "https://a.example/y", title := strL "n", excerpt := [],
    published_date := strL "2024-02-01", topics := [], tags := [],
    scraped_at := strL "2024-02-02 00:00:00" }

/-- Master frame with two rows and no `url` column: `old_unique` falls
    back to the row count. -/
def c3DfOld : Df :=
  { cols := [strL "a"],
    rows := [[(strL "a", strL "1")], [(strL "a", strL "2")]] }

def c3DfNew : Df :=
  { cols := [strL "url"], rows := [[(strL "url", strL "x")]] }

/-- A new batch with rows whose article link sits under the `link` alias
    rather than a `url` column. -/
def c5DfLink : Df :=
  { cols := [strL "link"],
    rows := [[(strL "link", strL "https://a.example/x")]] }

def c6DfOld : Df :=
  { cols := [strL "url"], rows := [[(strL "url", strL "a")]] }

def c6DfNew : Df :=
  { cols := [strL "url"], rows := [[(strL "url", strL "b")]] }

def c6MmOld : Df :=
  { cols := [strL "url"], rows := [[(strL "url", strL "a")]] }

def c6MmNew : Df :=
  { cols := [strL "url"], rows := [[(strL "url", strL "b")]] }

/-- The frame `merge_dedupe` serializes for the C6 scenario. -/
def c6DedupeOut : Df :=
  { cols := [strL "url"],
    rows := [[(strL "url", strL "a")], [(strL "url", strL "b")]] }

def c9RowOld : Row :=
  { url := strL "u", title := strL "first", excerpt := [],
    published_date := strL "2024-01-05", topics := [], tags := [],
    scraped_at := strL "2024-01-06 00:00:00" }

def c9RowNew : Row :=
  { url := strL "u", title := strL "second", excerpt := [],
    published_date := strL "2024-01-01", topics := [], tags := [],
    scraped_at := [] }

/-- The last row in file order whose url equals `u`. -/
def lastWith (u : Str) : List Row → Option Row
  | [] => none
  | r :: rest =>
    match lastWith u rest with
    | some q => some q
    | none => if r.url = u then some r else none

/-- The raw fold underlying `pySplitWs`, before empty pieces are
    filtered out. -/
def rawSplitWs (l : Str) : List Str :=
  l.foldr
    (fun c acc =>
      if pyWhite c then [] :: acc
      else
        match acc with
        | [] => [[c]]
        | p :: ps => (c :: p) :: ps)
    []

/-- Two characters that the acronym heuristics cannot tell apart. -/
def classEq (x y : Char) : Prop :=
  isAsciiLetter x = isAsciiLetter y ∧ isPyDigit x = isPyDigit y ∧
    ((x = '&') ↔ (y = '&')) ∧ ((x = '.') ↔ (y = '.'))

def rep1 (l : Str) : Str := replace3 'C' 'o' '2' (strL "CO2") l

def rep2 (l : Str) : Str := replace3 'C' 'o' '₂' (strL "CO2") l

def passTok (t : Str) : Str := rep2 (rep1 (smartTitleToken t appAcronyms))

theorem lexLeB_total (a b : Str) : lexLeB a b = true ∨ lexLeB b a = true := by
  induction a generalizing b with
  | nil => left; rfl
  | cons x xs ih =>
    cases b with
    | nil => right; rfl
    | cons y ys =>
      by_cases hxy : x = y
      · subst hxy
        simpa [lexLeB] using ih ys
      · rcases lt_or_gt_of_ne hxy with h | h
        · left
          simp only [lexLeB, if_neg hxy]
          exact decide_eq_true h
        · right
          have hyx : ¬y = x := fun hh => hxy hh.symm
          simp only [lexLeB, if_neg hyx]
          exact decide_eq_true h

theorem lexLeB_trans {a b c : Str} (h1 : lexLeB a b = true)
    (h2 : lexLeB b c = true) : lexLeB a c = true := by
  induction a generalizing b c with
  | nil => rfl
  | cons x xs ih =>
    cases b with
    | nil => simp [lexLeB] at h1
    | cons y ys =>
      cases c with
      | nil => simp [lexLeB] at h2
      | cons z zs =>
        simp only [lexLeB] at h1 h2
        simp only [lexLeB]
        by_cases hxy : x = y
        · subst hxy
          rw [if_pos rfl] at h1
          by_cases hxz : x = z
          · subst hxz
            rw [if_pos rfl] at h2
            rw [if_pos rfl]
            exact ih h1 h2
          · rw [if_neg hxz] at h2
            rw [if_neg hxz]
            exact h2
        · rw [if_neg hxy] at h1
          by_cases hyz : y = z
          · subst hyz
            rw [if_neg hxy]
            exact h1
          · rw [if_neg hyz] at h2
            have hlt : x < z :=
              lt_trans (of_decide_eq_true h1) (of_decide_eq_true h2)
            rw [if_neg (ne_of_lt hlt)]
            exact decide_eq_true hlt

instance : IsTotal Str lexLeP := ⟨fun a b => lexLeB_total a b⟩

instance : IsTrans Str lexLeP := ⟨fun _ _ _ h1 h2 => lexLeB_trans h1 h2⟩

theorem lastWith_eq_none {u : Str} {l : List Row} (h : lastWith u l = none) :
    ∀ q ∈ l, q.url ≠ u := by
  induction l with
  | nil => intro q hq; cases hq
  | cons r rest ih =>
    intro q hq
    simp only [lastWith] at h
    rcases hmatch : lastWith u rest with _ | s
    · rw [hmatch] at h
      rcases List.mem_cons.mp hq with hq | hq
      · subst hq
        intro hqu
        rw [if_pos hqu] at h
        cases h
      · exact ih hmatch q hq
    · rw [hmatch] at h
      cases h

theorem lastWith_mem {u : Str} {l : List Row} {s : Row}
    (h : lastWith u l = some s) : s ∈ l ∧ s.url = u := by
  induction l with
  | nil => cases h
  | cons t ts iht =>
    simp only [lastWith] at h
    rcases hm2 : lastWith u ts with _ | s2
    · rw [hm2] at h
      by_cases htu : t.url = u
      · rw [if_pos htu] at h
        cases h
        exact ⟨List.mem_cons_self _ _, htu⟩
      · rw [if_neg htu] at h
        cases h
    · rw [hm2] at h
      cases h
      rcases iht hm2 with ⟨hmem, hurl⟩
      exact ⟨List.mem_cons_of_mem _ hmem, hurl⟩

theorem lastWith_of_mem {u : Str} {l : List Row} {q : Row} (hq : q ∈ l)
    (hqu : q.url = u) : lastWith u l ≠ none := by
  intro hnone
  exact lastWith_eq_none hnone q hq hqu

theorem dropDupLast_filter (l : List Row) (u : Str) :
    (dropDupLastBy (fun r => r.url) l).filter (fun q => decide (q.url = u)) =
      (lastWith u l).toList := by
  induction l with
  | nil => rfl
  | cons r rest ih =>
    by_cases h : rest.any (fun q => decide (q.url = r.url))
    · rw [show dropDupLastBy (fun r => r.url) (r :: rest) =
          dropDupLastBy (fun r => r.url) rest by simp [dropDupLastBy, h]]
      rw [ih]
      rcases hmatch : lastWith u rest with _ | s
      · by_cases hru : r.url = u
        · exfalso
          rcases List.any_eq_true.mp h with ⟨q, hq, hqr⟩
          exact lastWith_of_mem hq (by rw [of_decide_eq_true hqr, hru]) hmatch
        · simp [lastWith, hmatch, hru]
      · simp [lastWith, hmatch]
    · rw [show dropDupLastBy (fun r => r.url) (r :: rest) =
          r :: dropDupLastBy (fun r => r.url) rest by simp [dropDupLastBy, h]]
      by_cases hru : r.url = u
      · have hnone : lastWith u rest = none := by
          rcases hmatch : lastWith u rest with _ | s
          · rfl
          · exfalso
            rcases lastWith_mem hmatch with ⟨hmem, hurl⟩
            exact h (List.any_eq_true.mpr
              ⟨s, hmem, decide_eq_true (by rw [hurl, hru])⟩)
        simp only [List.filter_cons, decide_eq_true hru, if_pos, ih, hnone,
          lastWith]
        simp [hru]
      · have hf : decide (r.url = u) = false := decide_eq_false hru
        simp only [List.filter_cons, hf, Bool.false_eq_true, if_neg, ih,
          lastWith]
        rcases hmatch : lastWith u rest with _ | s
        · simp [hmatch, hru]
        · simp [hmatch]

/-- Claim C8 (confirmed): countries derive from normalized tags via the
    abbreviation table and the recognized-country set as a sorted,
    duplicate-free list; the U.K. and United States Of America examples
    evaluate as claimed. -/
theorem C8_country_derivation :
    countriesFromTags (tagsListOf [strL "U.K.", strL "Offshore"]) =
        [strL "UK"] ∧
    countriesFromTags (tagsListOf [strL "United States Of America"]) =
        [strL "US"] ∧
    (∀ tags, (countriesFromTags tags).Sorted lexLeP ∧
      (countriesFromTags tags).Nodup) ∧
    (∀ tags c, c ∈ countriesFromTags tags ↔
      ((∃ t ∈ tags, canonicalCountryFromTag t = some c) ∨
        (c ∈ tags ∧ countrySetFallback.contains c = true))) := by
  refine ⟨by decide, by decide, ?_, ?_⟩
  · intro tags
    constructor
    · exact List.sorted_insertionSort lexLeP _
    · exact ((List.perm_insertionSort lexLeP _).nodup_iff).mpr
        (List.nodup_dedup _)
  · intro tags c
    simp [countriesFromTags, List.mem_insertionSort, List.mem_dedup,
      List.mem_append, List.mem_filterMap, List.mem_filter]

/-- Claim C9 (confirmed): after url normalization and dropping blank urls,
    the viewer's dedup keeps exactly the last row in file order for each
    url. -/
theorem C9_viewer_keeps_last (rows : List Row) (u : Str) (r : Row)
    (h : lastWith u (viewerNorm rows) = some r) :
    (loadDataRows rows).filter (fun q => decide (q.url = u)) = [r] := by
  have hperm :
      List.Perm
        ((loadDataRows rows).filter (fun q => decide (q.url = u)))
        ((dropDupLastBy (fun r => r.url) (viewerNorm rows)).filter
          (fun q => decide (q.url = u))) :=
    (List.perm_insertionSort pubDescLe _).filter _
  rw [dropDupLast_filter, h] at hperm
  exact List.perm_singleton.mp hperm

/-- Witness for C9: the later blank-scraped_at row wins over the earlier
    2024 row, showing recency is ignored. -/
theorem C9_witness :
    lastWith (strL "u") (viewerNorm [c9RowOld, c9RowNew]) = some c9RowNew ∧
    (loadDataRows [c9RowOld, c9RowNew]).filter
      (fun q => decide (q.url = strL "u")) = [c9RowNew] :=
  ⟨by decide, C9_viewer_keeps_last _ _ _ (by decide)⟩

theorem distinctUrls_eq_card (l : List Row) :
    distinctUrls l = (l.map Row.url).toFinset.card :=
  (List.card_toFinset _).symm

theorem dropDupLast_url_toFinset (l : List Row) :
    ((dropDupLastBy (fun r => r.url) l).map Row.url).toFinset =
      (l.map Row.url).toFinset := by
  induction l with
  | nil => rfl
  | cons r rest ih =>
    by_cases h : rest.any (fun q => decide (q.url = r.url))
    · rw [show dropDupLastBy (fun r => r.url) (r :: rest) =
          dropDupLastBy (fun r => r.url) rest by simp [dropDupLastBy, h]]
      rw [ih]
      rcases List.any_eq_true.mp h with ⟨q, hq, hqr⟩
      have hmem : r.url ∈ rest.map Row.url :=
        List.mem_map.mpr ⟨q, hq, of_decide_eq_true hqr⟩
      simp [List.toFinset_cons,
        Finset.insert_eq_self.mpr (List.mem_toFinset.mpr hmem)]
    · rw [show dropDupLastBy (fun r => r.url) (r :: rest) =
          r :: dropDupLastBy (fun r => r.url) rest by simp [dropDupLastBy, h]]
      simp [List.toFinset_cons, ih]

theorem perm_toFinset {α : Type} [DecidableEq α] {l1 l2 : List α}
    (h : List.Perm l1 l2) : l1.toFinset = l2.toFinset := by
  ext a
  simp [List.mem_toFinset, h.mem_iff]

theorem mergeCombine_url_toFinset (old new : List Row) :
    ((mergeCombine old new).map Row.url).toFinset =
      ((old ++ new).map Row.url).toFinset := by
  unfold mergeCombine
  rw [perm_toFinset ((List.perm_insertionSort pubDescLe _).map Row.url)]
  rw [dropDupLast_url_toFinset]
  rw [perm_toFinset ((List.perm_insertionSort urlScrLe _).map Row.url)]

/-- Claim C3 (confirmed): a written merge output never has fewer distinct
    urls than the master as read, and merge_master aborts without any
    filesystem write when the proposed output would shrink the
    distinct-url count. -/
theorem C3_no_shrink :
    (∀ mf nf out, (runMergeJpt mf nf).outcome = MergeOutcome.wrote out →
      distinctUrls (recordsToDf (mf.getD [])) ≤ distinctUrls out) ∧
    (∀ mf n, hasCol n (strL "url") = true → mf.isSome = true →
      nuniqueCol (mmProposed mf n) (strL "url") < mmOldUnique mf →
      runMergeMaster mf (some n) = (MMOutcome.shrinkError, [])) := by
  constructor
  · intro mf nf out h
    simp only [runMergeJpt] at h
    split at h
    · simp at h
    · split at h
      · simp at h
      · simp only [MergeOutcome.wrote.injEq] at h
        subst h
        rw [distinctUrls_eq_card, distinctUrls_eq_card,
          mergeCombine_url_toFinset]
        apply Finset.card_le_card
        rw [List.map_append, List.toFinset_append]
        exact Finset.subset_union_left
  · intro mf n hcol hsome hlt
    have hcond : (mf.isSome && decide (0 < mmOldUnique mf) &&
        decide (nuniqueCol (mmProposed mf n) (strL "url") <
          mmOldUnique mf)) = true := by
      rw [hsome]
      simp only [Bool.true_and, Bool.and_eq_true, decide_eq_true_eq]
      exact ⟨Nat.lt_of_le_of_lt (Nat.zero_le _) hlt, hlt⟩
    simp only [runMergeMaster, hcol, Bool.not_true, Bool.false_eq_true,
      if_false, hcond, if_true]

/-- Witness for C3 at concrete frames exercising both conjuncts. -/
theorem C3_witness :
    ((runMergeJpt none (some [c3RowNew])).outcome =
        MergeOutcome.wrote [c3RowNew] ∧
      distinctUrls (recordsToDf ((none : Option (List Row)).getD [])) ≤
        distinctUrls [c3RowNew]) ∧
    (hasCol c3DfNew (strL "url") = true ∧
      runMergeMaster (some c3DfOld) (some c3DfNew) =
        (MMOutcome.shrinkError, [])) :=
  ⟨⟨by decide, C3_no_shrink.1 none (some [c3RowNew]) [c3RowNew] (by decide)⟩,
   ⟨by decide,
    C3_no_shrink.2 (some c3DfOld) c3DfNew (by decide) (by decide)
      (by decide)⟩⟩

/-- Claim C1 (corrected): whenever the master file exists and, as read,
    trips the minimum-distinct-urls or too-recent-earliest-date guard, and
    the run is not the both-empty early return, the merge raises
    GuardViolationError and leaves the master byte-identical on disk. -/
theorem C1_guard_rejects (m : List Row) (nf : Option (List Row))
    (hbad : distinctUrls (recordsToDf m) < MIN_UNIQUE_URLS ∨
      (∃ d, minPub (recordsToDf m) = some d ∧ MAX_ALLOWED_MIN_DATE < d))
    (hne : ¬(recordsToDf m = [] ∧ recordsToDf (nf.getD []) = [])) :
    isGuardError (runMergeJpt (some m) nf).outcome = true ∧
    (runMergeJpt (some m) nf).masterAfter = some m ∧
    (runMergeJpt (some m) nf).trace = [] := by
  have hguard : ∃ e, guardMaster (recordsToDf m) = some e := by
    unfold guardMaster
    by_cases he : recordsToDf m = []
    · exact ⟨_, by rw [if_pos he]⟩
    · rw [if_neg he]
      by_cases hsmall : distinctUrls (recordsToDf m) < MIN_UNIQUE_URLS
      · exact ⟨_, by rw [if_pos hsmall]⟩
      · rw [if_neg hsmall]
        rcases hbad with h | ⟨d, hd, hlt⟩
        · exact absurd h hsmall
        · refine ⟨GuardErr.recentOnly, ?_⟩
          rw [hd]
          simp [hlt]
  rcases hguard with ⟨e, he⟩
  have hcond : (decide (recordsToDf m = []) &&
      decide (recordsToDf (nf.getD []) = [])) = false := by
    rcases Decidable.em (recordsToDf m = []) with h1 | h1
    · rcases Decidable.em (recordsToDf (nf.getD []) = []) with h2 | h2
      · exact absurd ⟨h1, h2⟩ hne
      · simp [h2]
    · simp [h1]
  simp only [runMergeJpt, Option.getD_some, Option.isSome_some, if_true,
    hcond, Bool.false_eq_true, if_false, he]
  simp [isGuardError]

/-- Witness for C1 at a concrete master that trips the url-count guard. -/
theorem C1_witness :
    (distinctUrls (recordsToDf [c1Row]) < MIN_UNIQUE_URLS ∨
      (∃ d, minPub (recordsToDf [c1Row]) = some d ∧
        MAX_ALLOWED_MIN_DATE < d)) ∧
    isGuardError (runMergeJpt (some [c1Row]) none).outcome = true ∧
    (runMergeJpt (some [c1Row]) none).masterAfter = some [c1Row] ∧
    (runMergeJpt (some [c1Row]) none).trace = [] :=
  ⟨Or.inl (by decide),
   C1_guard_rejects [c1Row] none (Or.inl (by decide)) (by decide)⟩

/-- Claim C5 (corrected): merge_master raises SchemaError exactly when the
    parsed new batch lacks a column literally named url, regardless of row
    count; url aliases are never consulted, and the multiline-safe variant
    raises no schema error at all. -/
theorem C5_schema_exactly_when :
    (∀ mf n, (runMergeMaster mf (some n)).1 = MMOutcome.schemaError ↔
      hasCol n (strL "url") = false) ∧
    (∀ mf, (runMergeMaster mf none).1 = MMOutcome.noNew) := by
  constructor
  · intro mf n
    constructor
    · intro h
      by_cases hcol : hasCol n (strL "url")
      · exfalso
        simp only [runMergeMaster, hcol, Bool.not_true, Bool.false_eq_true,
          if_false] at h
        split at h <;> simp at h
      · simpa using hcol
    · intro h
      simp [runMergeMaster, h]
  · intro mf
    rfl

/-- Claim C6 (corrected): merge_master persists via a temporary file plus
    atomic replace and touches nothing on abort, but update_csv's
    merge_dedupe and merge_jpt_csv write directly to the master path. -/
theorem C6_write_discipline :
    (∀ mf nf out, (runMergeMaster mf nf).1 = MMOutcome.wrote out →
      (runMergeMaster mf nf).2 =
        [FsOp.writeCsv FPath.tmpMaster out,
         FsOp.rename FPath.tmpMaster FPath.master,
         FsOp.unlink FPath.newBatch]) ∧
    (∀ mf nf, isWroteMM (runMergeMaster mf nf).1 = false →
      (runMergeMaster mf nf).2 = []) ∧
    (∀ o n out, (runMergeDedupe (some o) (some n)).1 = MDOutcome.wrote out →
      (runMergeDedupe (some o) (some n)).2 =
        [FsOp.writeCsv FPath.master out]) ∧
    (∀ mf nf out, (runMergeJpt mf nf).outcome = MergeOutcome.wrote out →
      (runMergeJpt mf nf).trace = [FsOp.writeCsv FPath.master out]) := by
  refine ⟨?_, ?_, ?_, ?_⟩
  · intro mf nf out h
    rcases nf with _ | newDf
    · simp [runMergeMaster] at h
    · by_cases hcol : hasCol newDf (strL "url")
      · by_cases hshrink : (mf.isSome && decide (0 < mmOldUnique mf) &&
            decide (nuniqueCol (mmProposed mf newDf) (strL "url") <
              mmOldUnique mf)) = true
        · simp [runMergeMaster, hcol, hshrink] at h
        · simp only [runMergeMaster, hcol, Bool.not_true,
            Bool.false_eq_true, if_false, hshrink] at h
          simp only [MMOutcome.wrote.injEq] at h
          subst h
          simp [runMergeMaster, hcol, hshrink]
      · simp [runMergeMaster, hcol] at h
  · intro mf nf h
    rcases nf with _ | newDf
    · rfl
    · by_cases hcol : hasCol newDf (strL "url")
      · by_cases hshrink : (mf.isSome && decide (0 < mmOldUnique mf) &&
            decide (nuniqueCol (mmProposed mf newDf) (strL "url") <
              mmOldUnique mf)) = true
        · simp [runMergeMaster, hcol, hshrink]
        · simp only [runMergeMaster, hcol, Bool.not_true,
            Bool.false_eq_true, if_false, hshrink] at h
          simp [isWroteMM] at h
      · simp [runMergeMaster, hcol]
  · intro o n out h
    by_cases hcol : hasCol n (strL "url")
    · simp only [runMergeDedupe, hcol, Bool.not_true, Bool.false_eq_true,
        if_false] at h
      simp only [MDOutcome.wrote.injEq] at h
      subst h
      simp [runMergeDedupe, hcol]
    · simp [runMergeDedupe, hcol] at h
  · intro mf nf out h
    simp only [runMergeJpt] at h
    by_cases hempty : (decide (recordsToDf (mf.getD []) = []) &&
        decide (recordsToDf (nf.getD []) = [])) = true
    · simp [hempty] at h
    · simp only [hempty, Bool.false_eq_true, if_false] at h
      rcases hg : (if mf.isSome then guardMaster (recordsToDf (mf.getD []))
          else none) with _ | e
      · rw [hg] at h
        simp only [MergeOutcome.wrote.injEq] at h
        subst h
        simp only [runMergeJpt, hempty, Bool.false_eq_true, if_false, hg]
      · rw [hg] at h
        simp at h

/-- Witness for C6 at concrete frames for both merge variants. -/
theorem C6_witness :
    ((runMergeMaster (some c6MmOld) (some c6MmNew)).1 =
        MMOutcome.wrote (mmProposed (some c6MmOld) c6MmNew) ∧
      (runMergeMaster (some c6MmOld) (some c6MmNew)).2 =
        [FsOp.writeCsv FPath.tmpMaster (mmProposed (some c6MmOld) c6MmNew),
         FsOp.rename FPath.tmpMaster FPath.master,
         FsOp.unlink FPath.newBatch]) ∧
    (runMergeDedupe (some c6DfOld) (some c6DfNew)).2 =
      [FsOp.writeCsv FPath.master c6DedupeOut] :=
  ⟨⟨by decide,
    C6_write_discipline.1 (some c6MmOld) (some c6MmNew) _ (by decide)⟩,
   C6_write_discipline.2.2.1 c6DfOld c6DfNew c6DedupeOut (by decide)⟩

/-- Claim C7 (confirmed): the canonicalizer maps "lng" to "LNG",
    "co2 emissions" to "CO2 Emissions", "mcdermott" to "Mcdermott", and
    preserves the internal capital of "McDermott". -/
theorem C7_acronym_examples :
    normalizePhrase (strL "lng") appAcronyms = strL "LNG" ∧
    normalizePhrase (strL "co2 emissions") appAcronyms = strL "CO2 Emissions" ∧
    normalizePhrase (strL "mcdermott") appAcronyms = strL "Mcdermott" ∧
    normalizePhrase (strL "McDermott") appAcronyms = strL "McDermott" := by
  decide

/-- Claim C10 (confirmed): empty keyword lists and empty selections match
    everything, and apply_filters with no keywords and no selections
    reduces to exactly the published-date mask. -/
theorem C10_empty_selections :
    (∀ vals mode, applyMatch [] vals mode = true) ∧
    (∀ text anyMode, matchKeywords text [] anyMode = true) ∧
    (∀ df s e am m1 m2 m3,
      applyFilters df s e [] am [] [] [] m1 m2 m3 =
        df.map (fun r => betweenDate r.published_date s e)) := by
  refine ⟨?_, ?_, ?_⟩
  · intro vals mode
    simp [applyMatch, mustIncludeAll, mustIncludeAny]
  · intro text anyMode
    simp [matchKeywords]
  · intro df s e am m1 m2 m3
    simp [applyFilters]

/-- Claim C2 (code bug): evaluating the dedup engine on a duplicate url
    where the master row has a parsable scraped_at and the new row an
    unparsable one shows the unparsable row winning, contradicting the
    code's stated keep-newest-scraped_at intent. -/
theorem C2_eval :
    mergeCombine [c2RowMaster] [c2RowNew] = [c2RowNew] ∧
    parseDT c2RowMaster.scraped_at = some (encodeDT 2024 1 1 0 0 0) ∧
    parseDT c2RowNew.scraped_at = none := by decide

/-- Counterexample to C1 as written: master exists but parses empty and the
    batch is empty, so the early no-op return bypasses the guard. -/
theorem C1_counterexample :
    isGuardError (runMergeJpt (some []) none).outcome = false ∧
    (runMergeJpt (some []) none).outcome = MergeOutcome.noop ∧
    distinctUrls (recordsToDf []) < MIN_UNIQUE_URLS ∧
    (runMergeJpt (some []) none).masterAfter = some [] := by decide

/-- Counterexample to C4 as written: "ACo2D" canonicalizes to "ACO2D",
    which canonicalizes further to "Aco2d". -/
theorem C4_counterexample :
    normalizePhrase (strL "ACo2D") appAcronyms = strL "ACO2D" ∧
    normalizePhrase (strL "ACO2D") appAcronyms = strL "Aco2d" ∧
    normalizePhrase (normalizePhrase (strL "ACo2D") appAcronyms) appAcronyms ≠
      normalizePhrase (strL "ACo2D") appAcronyms := by decide

/-- Counterexample to C5 as written: a batch with rows whose link sits only
    under the link alias still raises the schema error. -/
theorem C5_counterexample :
    (runMergeMaster none (some c5DfLink)).1 = MMOutcome.schemaError ∧
    c5DfLink.rows ≠ [] ∧ hasCol c5DfLink (strL "link") = true := by decide

/-- Counterexample to C6 as written: merge_dedupe writes the master path
    directly, with no temporary file or rename in its trace. -/
theorem C6_counterexample :
    isWroteMD (runMergeDedupe (some c6DfOld) (some c6DfNew)).1 = true ∧
    ((runMergeDedupe (some c6DfOld) (some c6DfNew)).2.any (fun op =>
      match op with
      | .rename _ _ => true
      | .writeCsv .tmpMaster _ => true
      | _ => false)) = false ∧
    ((runMergeDedupe (some c6DfOld) (some c6DfNew)).2.any (fun op =>
      match op with
      | .writeCsv .master _ => true
      | _ => false)) = true := by decide

/-! ### Character-level groundwork for the canonicalizer proofs -/

theorem toNat_ofNat_lt (m : Nat) (h : m < 55296) : (Char.ofNat m).toNat = m := by
  have hv : Nat.isValidChar m := Or.inl h
  rw [Char.ofNat, dif_pos hv]
  simp [Char.ofNatAux, Char.toNat, UInt32.toNat]

theorem char_toNat_inj {c d : Char} (h : c.toNat = d.toNat) : c = d :=
  Char.ext (UInt32.toNat.inj h)

theorem char_eq_iff_toNat {c d : Char} : c = d ↔ c.toNat = d.toNat :=
  ⟨fun h => by rw [h], fun h => char_toNat_inj h⟩

theorem toNat_toUpper (c : Char) :
    (Char.toUpper c).toNat =
      if 97 ≤ c.toNat ∧ c.toNat ≤ 122 then c.toNat - 32 else c.toNat := by
  rw [show Char.toUpper c =
      if 97 ≤ c.toNat ∧ c.toNat ≤ 122 then Char.ofNat (c.toNat - 32) else c
      from rfl]
  split
  · next h => exact toNat_ofNat_lt _ (by omega)
  · rfl

theorem toNat_toLower (c : Char) :
    (Char.toLower c).toNat =
      if 65 ≤ c.toNat ∧ c.toNat ≤ 90 then c.toNat + 32 else c.toNat := by
  rw [show Char.toLower c =
      if 65 ≤ c.toNat ∧ c.toNat ≤ 90 then Char.ofNat (c.toNat + 32) else c
      from rfl]
  split
  · next h => exact toNat_ofNat_lt _ (by omega)
  · rfl

theorem toUpper_toUpper (c : Char) :
    (Char.toUpper c).toUpper = Char.toUpper c := by
  apply char_toNat_inj
  rw [toNat_toUpper, toNat_toUpper]
  split_ifs <;> omega

theorem toUpper_toLower (c : Char) :
    (Char.toLower c).toUpper = Char.toUpper c := by
  apply char_toNat_inj
  rw [toNat_toUpper, toNat_toLower, toNat_toUpper]
  split_ifs <;> omega

theorem toLower_toLower (c : Char) :
    (Char.toLower c).toLower = Char.toLower c := by
  apply char_toNat_inj
  rw [toNat_toLower, toNat_toLower]
  split_ifs <;> omega

theorem toLower_toUpper (c : Char) :
    (Char.toUpper c).toLower = Char.toLower c := by
  apply char_toNat_inj
  rw [toNat_toLower, toNat_toUpper, toNat_toLower]
  split_ifs <;> omega

theorem pyWhite_toNat (c : Char) :
    pyWhite c = (decide (c.toNat = 32) || decide (c.toNat = 9) ||
      decide (c.toNat = 10) || decide (c.toNat = 13) ||
      decide (c.toNat = 11) || decide (c.toNat = 12)) := by
  simp only [pyWhite, char_eq_iff_toNat]
  rfl

theorem isDashSlash_toNat (c : Char) :
    isDashSlash c = (decide (c.toNat = 45) || decide (c.toNat = 47)) := by
  simp only [isDashSlash, char_eq_iff_toNat]
  rfl

theorem isAsciiLetter_toNat (c : Char) :
    isAsciiLetter c = (decide (65 ≤ c.toNat) && decide (c.toNat ≤ 90) ||
      decide (97 ≤ c.toNat) && decide (c.toNat ≤ 122)) := rfl

theorem isPyDigit_toNat (c : Char) :
    isPyDigit c = (decide (48 ≤ c.toNat) && decide (c.toNat ≤ 57) ||
      decide (c.toNat = 8322)) := by
  simp only [isPyDigit, char_eq_iff_toNat]
  rfl

theorem isUpper_toNat (c : Char) :
    c.isUpper = (decide (65 ≤ c.toNat) && decide (c.toNat ≤ 90)) := rfl

theorem isLower_toNat (c : Char) :
    c.isLower = (decide (97 ≤ c.toNat) && decide (c.toNat ≤ 122)) := rfl

theorem pyWhite_toUpper (c : Char) : pyWhite (Char.toUpper c) = pyWhite c := by
  rw [Bool.eq_iff_iff]
  simp only [pyWhite_toNat, toNat_toUpper, Bool.or_eq_true, decide_eq_true_eq]
  split_ifs <;> omega

theorem pyWhite_toLower (c : Char) : pyWhite (Char.toLower c) = pyWhite c := by
  rw [Bool.eq_iff_iff]
  simp only [pyWhite_toNat, toNat_toLower, Bool.or_eq_true, decide_eq_true_eq]
  split_ifs <;> omega

theorem isDashSlash_toUpper (c : Char) :
    isDashSlash (Char.toUpper c) = isDashSlash c := by
  rw [Bool.eq_iff_iff]
  simp only [isDashSlash_toNat, toNat_toUpper, Bool.or_eq_true,
    decide_eq_true_eq]
  split_ifs <;> omega

theorem isDashSlash_toLower (c : Char) :
    isDashSlash (Char.toLower c) = isDashSlash c := by
  rw [Bool.eq_iff_iff]
  simp only [isDashSlash_toNat, toNat_toLower, Bool.or_eq_true,
    decide_eq_true_eq]
  split_ifs <;> omega

theorem wordChar_toUpper (c : Char) :
    wordChar (Char.toUpper c) = wordChar c := by
  simp only [wordChar, pyWhite_toUpper, isDashSlash_toUpper]

theorem wordChar_toLower (c : Char) :
    wordChar (Char.toLower c) = wordChar c := by
  simp only [wordChar, pyWhite_toLower, isDashSlash_toLower]

theorem isAsciiLetter_toUpper (c : Char) :
    isAsciiLetter (Char.toUpper c) = isAsciiLetter c := by
  rw [Bool.eq_iff_iff]
  simp only [isAsciiLetter_toNat, toNat_toUpper, Bool.or_eq_true,
    Bool.and_eq_true, decide_eq_true_eq]
  split_ifs <;> omega

theorem isAsciiLetter_toLower (c : Char) :
    isAsciiLetter (Char.toLower c) = isAsciiLetter c := by
  rw [Bool.eq_iff_iff]
  simp only [isAsciiLetter_toNat, toNat_toLower, Bool.or_eq_true,
    Bool.and_eq_true, decide_eq_true_eq]
  split_ifs <;> omega

theorem isPyDigit_toUpper (c : Char) :
    isPyDigit (Char.toUpper c) = isPyDigit c := by
  rw [Bool.eq_iff_iff]
  simp only [isPyDigit_toNat, toNat_toUpper, Bool.or_eq_true,
    Bool.and_eq_true, decide_eq_true_eq]
  split_ifs <;> omega

theorem isPyDigit_toLower (c : Char) :
    isPyDigit (Char.toLower c) = isPyDigit c := by
  rw [Bool.eq_iff_iff]
  simp only [isPyDigit_toNat, toNat_toLower, Bool.or_eq_true,
    Bool.and_eq_true, decide_eq_true_eq]
  split_ifs <;> omega

theorem ampChar_toUpper (c : Char) :
    ((Char.toUpper c = '&') ∨ (Char.toUpper c = '.')) ↔
      ((c = '&') ∨ (c = '.')) := by
  simp only [char_eq_iff_toNat, toNat_toUpper,
    show ('&').toNat = 38 from rfl, show ('.').toNat = 46 from rfl]
  split_ifs <;> omega

theorem ampChar_toLower (c : Char) :
    ((Char.toLower c = '&') ∨ (Char.toLower c = '.')) ↔
      ((c = '&') ∨ (c = '.')) := by
  simp only [char_eq_iff_toNat, toNat_toLower,
    show ('&').toNat = 38 from rfl, show ('.').toNat = 46 from rfl]
  split_ifs <;> omega

theorem isUpper_toLower_false (c : Char) : (Char.toLower c).isUpper = false := by
  rw [isUpper_toNat, toNat_toLower]
  simp only [Bool.and_eq_false_iff, decide_eq_false_iff_not]
  split_ifs <;> omega

theorem isLower_toUpper_false (c : Char) : (Char.toUpper c).isLower = false := by
  rw [isLower_toNat, toNat_toUpper]
  simp only [Bool.and_eq_false_iff, decide_eq_false_iff_not]
  split_ifs <;> omega

theorem toUpper_ne_o (c : Char) : Char.toUpper c ≠ 'o' := by
  simp only [ne_eq, char_eq_iff_toNat, toNat_toUpper,
    show ('o').toNat = 111 from rfl]
  split_ifs <;> omega

theorem toLower_ne_C (c : Char) : Char.toLower c ≠ 'C' := by
  simp only [ne_eq, char_eq_iff_toNat, toNat_toLower,
    show ('C').toNat = 67 from rfl]
  split_ifs <;> omega

theorem toUpper_eq_self_of_not_lower {c : Char} (h : c.isLower = false) :
    Char.toUpper c = c := by
  apply char_toNat_inj
  rw [toNat_toUpper]
  rw [isLower_toNat] at h
  simp only [Bool.and_eq_false_iff, decide_eq_false_iff_not] at h
  split_ifs <;> omega

theorem toLower_eq_self_of_not_upper {c : Char} (h : c.isUpper = false) :
    Char.toLower c = c := by
  apply char_toNat_inj
  rw [toNat_toLower]
  rw [isUpper_toNat] at h
  simp only [Bool.and_eq_false_iff, decide_eq_false_iff_not] at h
  split_ifs <;> omega

/-! ### Substring and replacement lemmas -/

theorem occursIn_iff {p l : Str} :
    occursIn p l = true ↔ ∃ xs ys, l = xs ++ p ++ ys := by
  induction l with
  | nil =>
    simp only [occursIn]
    constructor
    · intro h
      rcases List.isPrefixOf_iff_prefix.mp h with ⟨t, ht⟩
      exact ⟨[], t, by simp [← ht]⟩
    · rintro ⟨xs, ys, hl⟩
      have hp : p = [] := by
        rcases List.append_eq_nil.mp hl.symm with ⟨h1, h2⟩
        exact (List.append_eq_nil.mp h1).2
      simp [hp, List.isPrefixOf]
  | cons c l ih =>
    simp only [occursIn, Bool.or_eq_true]
    constructor
    · rintro (h | h)
      · rcases List.isPrefixOf_iff_prefix.mp h with ⟨t, ht⟩
        exact ⟨[], t, by simp [← ht]⟩
      · rcases ih.mp h with ⟨xs, ys, hl⟩
        exact ⟨c :: xs, ys, by simp [hl]⟩
    · rintro ⟨xs, ys, hl⟩
      rcases xs with _ | ⟨x, xs⟩
      · left
        exact List.isPrefixOf_iff_prefix.mpr ⟨ys, by simpa using hl.symm⟩
      · right
        refine ih.mpr ⟨xs, ys, ?_⟩
        simpa using congrArg List.tail hl

theorem occursIn_trans {p q l : Str} (h1 : occursIn p q = true)
    (h2 : occursIn q l = true) : occursIn p l = true := by
  rcases occursIn_iff.mp h1 with ⟨as, bs, hq⟩
  rcases occursIn_iff.mp h2 with ⟨cs, ds, hl⟩
  refine occursIn_iff.mpr ⟨cs ++ as, bs ++ ds, ?_⟩
  subst hq
  simp [hl]

theorem occursIn_cons_of {p : Str} {c : Char} {l : Str}
    (h : occursIn p l = true) : occursIn p (c :: l) = true := by
  simp [occursIn, h]

theorem occursIn_of_mem_flatten {p : Str} {ps : List Str} (h : p ∈ ps) :
    occursIn p ps.flatten = true := by
  rcases List.append_of_mem h with ⟨s, t, hps⟩
  subst hps
  refine occursIn_iff.mpr ⟨s.flatten, t.flatten, ?_⟩
  simp [List.flatten_append]

theorem occursIn3_first {a b c : Char} {l : Str}
    (h : occursIn [a, b, c] l = true) : a ∈ l := by
  rcases occursIn_iff.mp h with ⟨xs, ys, hl⟩
  subst hl
  simp

theorem occursIn3_second {a b c : Char} {l : Str}
    (h : occursIn [a, b, c] l = true) : b ∈ l := by
  rcases occursIn_iff.mp h with ⟨xs, ys, hl⟩
  subst hl
  simp

theorem replace3_nil (a b c : Char) (r : Str) : replace3 a b c r [] = [] := rfl

theorem replace3_one (a b c : Char) (r : Str) (x : Char) :
    replace3 a b c r [x] = [x] := rfl

theorem replace3_two (a b c : Char) (r : Str) (x y : Char) :
    replace3 a b c r [x, y] = [x, y] := rfl

theorem replace3_of_not_occurs (a b c : Char) (r : Str) :
    ∀ l : Str, occursIn [a, b, c] l = false → replace3 a b c r l = l
  | [], _ => rfl
  | [_], _ => rfl
  | [_, _], _ => rfl
  | x :: y :: z :: rest, h => by
    have hsplit : ([a, b, c].isPrefixOf (x :: y :: z :: rest)) = false ∧
        occursIn [a, b, c] (y :: z :: rest) = false := by
      constructor
      · rcases hp : [a, b, c].isPrefixOf (x :: y :: z :: rest) with _ | _
        · rfl
        · exfalso
          rw [show occursIn [a, b, c] (x :: y :: z :: rest) =
            ([a, b, c].isPrefixOf (x :: y :: z :: rest) ||
              occursIn [a, b, c] (y :: z :: rest)) from rfl, hp] at h
          simp at h
      · rcases ho : occursIn [a, b, c] (y :: z :: rest) with _ | _
        · rfl
        · exfalso
          rw [show occursIn [a, b, c] (x :: y :: z :: rest) =
            ([a, b, c].isPrefixOf (x :: y :: z :: rest) ||
              occursIn [a, b, c] (y :: z :: rest)) from rfl, ho] at h
          simp at h
    have hm : ¬(x = a ∧ y = b ∧ z = c) := by
      rintro ⟨h1, h2, h3⟩
      subst h1; subst h2; subst h3
      have : ([x, y, z].isPrefixOf (x :: y :: z :: rest)) = true := by
        simp [List.isPrefixOf]
      rw [this] at hsplit
      exact absurd hsplit.1 (by simp)
    have hcond : (decide (x = a) && decide (y = b) && decide (z = c)) =
        false := by
      rcases Decidable.em (x = a) with h1 | h1
      · rcases Decidable.em (y = b) with h2 | h2
        · rcases Decidable.em (z = c) with h3 | h3
          · exact absurd ⟨h1, h2, h3⟩ hm
          · simp [h3]
        · simp [h2]
      · simp [h1]
    simp only [replace3, hcond, Bool.false_eq_true, if_false]
    rw [replace3_of_not_occurs a b c r (y :: z :: rest) hsplit.2]

theorem replace3_cons3_pos {a b c x y z : Char} (r rest : Str)
    (h : x = a ∧ y = b ∧ z = c) :
    replace3 a b c r (x :: y :: z :: rest) = r ++ replace3 a b c r rest := by
  rcases h with ⟨h1, h2, h3⟩
  subst h1; subst h2; subst h3
  simp [replace3]

theorem replace3_cons3_neg {a b c x y z : Char} (r rest : Str)
    (h : ¬(x = a ∧ y = b ∧ z = c)) :
    replace3 a b c r (x :: y :: z :: rest) =
      x :: replace3 a b c r (y :: z :: rest) := by
  have hcond : (decide (x = a) && decide (y = b) && decide (z = c)) =
      false := by
    rcases Decidable.em (x = a) with h1 | h1
    · rcases Decidable.em (y = b) with h2 | h2
      · rcases Decidable.em (z = c) with h3 | h3
        · exact absurd ⟨h1, h2, h3⟩ h
        · simp [h3]
      · simp [h2]
    · simp [h1]
  simp only [replace3, hcond, Bool.false_eq_true, if_false]

theorem replace3_cons_sep {a b c s : Char} (r : Str) (hs : s ≠ a) :
    ∀ ys : Str, replace3 a b c r (s :: ys) = s :: replace3 a b c r ys
  | [] => rfl
  | [_] => rfl
  | _ :: _ :: ys' =>
    replace3_cons3_neg r ys' (fun hh => hs hh.1)

theorem replace3_append_sep {a b c s : Char} (r : Str) (hsa : s ≠ a)
    (hsb : s ≠ b) (hsc : s ≠ c) :
    ∀ xs ys : Str,
      replace3 a b c r (xs ++ s :: ys) =
        replace3 a b c r xs ++ s :: replace3 a b c r ys
  | [], ys => by simpa using replace3_cons_sep r hsa ys
  | [x], ys => by
    rcases ys with _ | ⟨y, ys'⟩
    · rfl
    · rw [show [x] ++ s :: y :: ys' = x :: s :: y :: ys' from rfl,
        replace3_cons3_neg r ys' (fun hh => hsb hh.2.1),
        replace3_cons_sep r hsa, replace3_one]
      rfl
  | [x1, x2], ys => by
    rw [show [x1, x2] ++ s :: ys = x1 :: x2 :: s :: ys from rfl,
      replace3_cons3_neg r ys (fun hh => hsc hh.2.2),
      show x2 :: s :: ys = [x2] ++ s :: ys from rfl,
      replace3_append_sep r hsa hsb hsc [x2] ys, replace3_two, replace3_one]
    rfl
  | x1 :: x2 :: x3 :: xs', ys => by
    by_cases hm : x1 = a ∧ x2 = b ∧ x3 = c
    · rw [show (x1 :: x2 :: x3 :: xs') ++ s :: ys =
        x1 :: x2 :: x3 :: (xs' ++ s :: ys) from rfl,
        replace3_cons3_pos r _ hm, replace3_cons3_pos r _ hm,
        replace3_append_sep r hsa hsb hsc xs' ys]
      rw [List.append_assoc]
    · rw [show (x1 :: x2 :: x3 :: xs') ++ s :: ys =
        x1 :: x2 :: x3 :: (xs' ++ s :: ys) from rfl,
        replace3_cons3_neg r _ hm, replace3_cons3_neg r _ hm,
        show x2 :: x3 :: (xs' ++ s :: ys) = (x2 :: x3 :: xs') ++ s :: ys
          from rfl,
        replace3_append_sep r hsa hsb hsc (x2 :: x3 :: xs') ys]
      rfl

/-! ### Whitespace-canonical strings -/

theorem joinSpace_nil : joinSpace [] = [] := rfl

theorem joinSpace_single (p : Str) : joinSpace [p] = p := by
  simp [joinSpace]

theorem joinSpace_cons_cons (p q : Str) (rest : List Str) :
    joinSpace (p :: q :: rest) = p ++ ' ' :: joinSpace (q :: rest) := by
  simp [joinSpace, List.intersperse_cons_cons]

theorem joinSpace_cons_head (c : Char) (q : Str) (rest : List Str) :
    joinSpace ((c :: q) :: rest) = c :: joinSpace (q :: rest) := by
  cases rest with
  | nil => simp [joinSpace]
  | cons r rs => simp [joinSpace, List.intersperse_cons_cons]

theorem singleSpaced_tail {c : Char} {l : Str}
    (h : singleSpaced (c :: l) = true) : singleSpaced l = true := by
  cases l with
  | nil => rfl
  | cons d r =>
    simp only [singleSpaced, Bool.and_eq_true] at h
    exact h.2

theorem singleSpaced_of_wsfree :
    ∀ {l : Str}, l.all (fun c => !pyWhite c) = true → singleSpaced l = true
  | [], _ => rfl
  | [c], h => by
    simp only [List.all_cons, List.all_nil, Bool.and_true] at h
    simp [singleSpaced, h]
  | c :: d :: r, h => by
    simp only [List.all_cons, Bool.and_eq_true] at h
    have hr : singleSpaced (d :: r) = true :=
      singleSpaced_of_wsfree (by simp [h.2.1, h.2.2])
    simp [singleSpaced, h.1, hr]

theorem singleSpaced_wsfree_append :
    ∀ {p : Str} (m : Str), p.all (fun c => !pyWhite c) = true →
      singleSpaced (p ++ m) = singleSpaced m
  | [], m, _ => rfl
  | c :: p', m, h => by
    simp only [List.all_cons, Bool.and_eq_true] at h
    rcases hpm : p' ++ m with _ | ⟨d, r⟩
    · rcases List.append_eq_nil.mp hpm with ⟨hp', hm⟩
      subst hp'; subst hm
      simp [singleSpaced, h.1]
    · have : singleSpaced (c :: p' ++ m) = singleSpaced (p' ++ m) := by
        rw [List.cons_append, hpm]
        simp [singleSpaced, h.1]
      rw [List.cons_append] at *
      rw [this, singleSpaced_wsfree_append m h.2]

theorem headWhite_append_left {xs : Str} (ys : Str) (h : xs ≠ []) :
    headWhite (xs ++ ys) = headWhite xs := by
  cases xs with
  | nil => exact absurd rfl h
  | cons c l => rfl

theorem dropWhile_id_of_head {l : Str} (h : headWhite l = false) :
    l.dropWhile pyWhite = l := by
  cases l with
  | nil => rfl
  | cons c r =>
    simp only [headWhite] at h
    simp [List.dropWhile_cons, h]

theorem stripStr_id {l : Str} (h1 : headWhite l = false)
    (h2 : headWhite l.reverse = false) : stripStr l = l := by
  unfold stripStr
  rw [dropWhile_id_of_head h1, dropWhile_id_of_head h2, List.reverse_reverse]

theorem collapseWs_id : ∀ {l : Str}, singleSpaced l = true → collapseWs l = l
  | [], _ => rfl
  | [c], h => by
    simp only [singleSpaced, Bool.or_eq_true, Bool.not_eq_eq_eq_not,
      Bool.not_true, decide_eq_true_eq] at h
    rcases h with h | h
    · simp [collapseWs, h]
    · subst h
      rfl
  | c :: d :: r, h => by
    simp only [singleSpaced, Bool.and_eq_true] at h
    have ih : collapseWs (d :: r) = d :: r := collapseWs_id h.2
    rcases h1 : pyWhite c with _ | _
    · simp [collapseWs, h1, ih]
    · have hc : c = ' ' ∧ pyWhite d = false := by
        rcases Bool.or_eq_true _ _ |>.mp h.1 with hh | hh
        · rw [h1] at hh
          simp at hh
        · simp only [Bool.and_eq_true, decide_eq_true_eq,
            Bool.not_eq_eq_eq_not, Bool.not_true] at hh
          exact hh
      rw [show collapseWs (c :: d :: r) =
        if pyWhite c then
          (if pyWhite d then collapseWs (d :: r)
           else ' ' :: collapseWs (d :: r))
        else c :: collapseWs (d :: r) from rfl]
      rw [if_pos h1, if_neg (by simp [hc.2]), ih, hc.1]

theorem pySplitWs_eq_raw (l : Str) :
    pySplitWs l = (rawSplitWs l).filter (fun p => p ≠ []) := rfl

theorem rawSplitWs_cons (c : Char) (l : Str) :
    rawSplitWs (c :: l) =
      if pyWhite c then [] :: rawSplitWs l
      else
        match rawSplitWs l with
        | [] => [[c]]
        | p :: ps => (c :: p) :: ps := rfl

theorem rawSplitWs_head {d : Char} (l : Str) (hd : pyWhite d = false) :
    ∃ p ps, rawSplitWs (d :: l) = (d :: p) :: ps := by
  rw [rawSplitWs_cons, if_neg (by simp [hd])]
  rcases rawSplitWs l with _ | ⟨q, qs⟩
  · exact ⟨[], [], rfl⟩
  · exact ⟨q, qs, rfl⟩

theorem rawSplitWs_spec :
    ∀ l : Str,
      (∀ p ∈ rawSplitWs l, p.all (fun c => !pyWhite c) = true) ∧
      (∀ q qs, rawSplitWs l = q :: qs → q.isPrefixOf l = true) ∧
      (∀ p ∈ rawSplitWs l, occursIn p l = true) := by
  intro l
  induction l with
  | nil => exact ⟨fun p hp => absurd hp (by simp [rawSplitWs]), 
      fun q qs h => by simp [rawSplitWs] at h,
      fun p hp => absurd hp (by simp [rawSplitWs])⟩
  | cons c l ih =>
    rcases hc : pyWhite c with _ | _
    · -- word character: merge into the head piece
      rcases hraw : rawSplitWs l with _ | ⟨q, qs⟩
      · have he : rawSplitWs (c :: l) = [[c]] := by
          rw [rawSplitWs_cons, if_neg (by simp [hc]), hraw]
        refine ⟨?_, ?_, ?_⟩
        · intro p hp
          rw [he] at hp
          rcases List.mem_singleton.mp hp with rfl
          simp [hc]
        · intro q qs h
          rw [he] at h
          cases h
          simp [List.isPrefixOf]
        · intro p hp
          rw [he] at hp
          rcases List.mem_singleton.mp hp with rfl
          simp [occursIn, List.isPrefixOf]
      · have he : rawSplitWs (c :: l) = (c :: q) :: qs := by
          rw [rawSplitWs_cons, if_neg (by simp [hc]), hraw]
        have hq : q.isPrefixOf l = true := (ih.2.1) q qs hraw
        refine ⟨?_, ?_, ?_⟩
        · intro p hp
          rw [he] at hp
          rcases List.mem_cons.mp hp with rfl | hp
          · have : q.all (fun c => !pyWhite c) = true :=
              ih.1 q (by rw [hraw]; exact List.mem_cons_self _ _)
            simp [hc, this]
          · exact ih.1 p (by rw [hraw]; exact List.mem_cons_of_mem _ hp)
        · intro q' qs' h
          rw [he] at h
          cases h
          simp only [List.isPrefixOf, List.cons_eq_cons]
          simp only [beq_self_eq_true, Bool.true_and]
          exact hq
        · intro p hp
          rw [he] at hp
          rcases List.mem_cons.mp hp with rfl | hp
          · refine occursIn_iff.mpr ?_
            rcases List.isPrefixOf_iff_prefix.mp hq with ⟨t, ht⟩
            exact ⟨[], t, by simp [← ht]⟩
          · exact occursIn_cons_of
              (ih.2.2 p (by rw [hraw]; exact List.mem_cons_of_mem _ hp))
    · -- whitespace: push an empty piece
      have he : rawSplitWs (c :: l) = [] :: rawSplitWs l := by
        rw [rawSplitWs_cons, if_pos (by simp [hc])]
      refine ⟨?_, ?_, ?_⟩
      · intro p hp
        rw [he] at hp
        rcases List.mem_cons.mp hp with rfl | hp
        · rfl
        · exact ih.1 p hp
      · intro q qs h
        rw [he] at h
        cases h
        simp [List.isPrefixOf]
      · intro p hp
        rw [he] at hp
        rcases List.mem_cons.mp hp with rfl | hp
        · simp [occursIn, List.isPrefixOf]
        · exact occursIn_cons_of (ih.2.2 p hp)

theorem pySplitWs_spec (l : Str) :
    ∀ p ∈ pySplitWs l, p ≠ [] ∧ p.all (fun c => !pyWhite c) = true ∧
      occursIn p l = true := by
  intro p hp
  rw [pySplitWs_eq_raw] at hp
  rcases List.mem_filter.mp hp with ⟨hmem, hne⟩
  exact ⟨by simpa using hne, (rawSplitWs_spec l).1 p hmem,
    (rawSplitWs_spec l).2.2 p hmem⟩

theorem joinSpace_ne_nil {p : Str} {rest : List Str} (hp : p ≠ []) :
    joinSpace (p :: rest) ≠ [] := by
  cases rest with
  | nil => simpa [joinSpace_single] using hp
  | cons q rs =>
    rw [joinSpace_cons_cons]
    intro h
    rcases List.append_eq_nil.mp h with ⟨h1, h2⟩
    cases h2

theorem headWhite_joinSpace {p : Str} (rest : List Str) (hp : p ≠ []) :
    headWhite (joinSpace (p :: rest)) = headWhite p := by
  cases rest with
  | nil => rw [joinSpace_single]
  | cons q rs =>
    rw [joinSpace_cons_cons, headWhite_append_left _ hp]

theorem joinSpace_canon :
    ∀ ps : List Str,
      (∀ p ∈ ps, p ≠ [] ∧ p.all (fun c => !pyWhite c) = true) →
      singleSpaced (joinSpace ps) = true ∧
      headWhite (joinSpace ps) = false ∧
      headWhite (joinSpace ps).reverse = false
  | [], _ => ⟨rfl, rfl, rfl⟩
  | [p], h => by
    rcases h p (List.mem_singleton.mpr rfl) with ⟨hne, hws⟩
    rw [joinSpace_single]
    refine ⟨singleSpaced_of_wsfree hws, ?_, ?_⟩
    · cases p with
      | nil => exact absurd rfl hne
      | cons c l =>
        simp only [List.all_cons, Bool.and_eq_true] at hws
        simp only [headWhite]
        simpa using hws.1
    · rcases hrev : p.reverse with _ | ⟨c, l⟩
      · rfl
      · have hc : c ∈ p := by
          have : c ∈ p.reverse := by rw [hrev]; exact List.mem_cons_self _ _
          simpa using this
        have := List.all_eq_true.mp hws c hc
        simp only [headWhite]
        simpa using this
  | p :: q :: rest, h => by
    rcases h p (List.mem_cons_self _ _) with ⟨hne, hws⟩
    have hrest : ∀ x ∈ q :: rest, x ≠ [] ∧
        x.all (fun c => !pyWhite c) = true :=
      fun x hx => h x (List.mem_cons_of_mem _ hx)
    rcases joinSpace_canon (q :: rest) hrest with ⟨ih1, ih2, ih3⟩
    have hqne : q ≠ [] := (hrest q (List.mem_cons_self _ _)).1
    have hJne : joinSpace (q :: rest) ≠ [] := joinSpace_ne_nil hqne
    rw [joinSpace_cons_cons]
    refine ⟨?_, ?_, ?_⟩
    · rw [singleSpaced_wsfree_append _ hws]
      rcases hJ : joinSpace (q :: rest) with _ | ⟨d, r⟩
      · exact absurd hJ hJne
      · have hd : pyWhite d = false := by
          have := ih2
          rw [hJ] at this
          simpa [headWhite] using this
        rw [hJ] at ih1
        simp [singleSpaced, hd, ih1]
    · rw [headWhite_append_left _ hne]
      cases p with
      | nil => exact absurd rfl hne
      | cons c l =>
        simp only [List.all_cons, Bool.and_eq_true] at hws
        simp only [headWhite]
        simpa using hws.1
    · rw [List.reverse_append, List.reverse_cons]
      rw [show (joinSpace (q :: rest)).reverse ++ [' '] ++ p.reverse =
        (joinSpace (q :: rest)).reverse ++ ([' '] ++ p.reverse) from by
          rw [List.append_assoc]]
      rw [headWhite_append_left _ (by simpa using hJne)]
      exact ih3

theorem normalizeText_canon (s : Str) :
    singleSpaced (normalizeText s) = true ∧
    headWhite (normalizeText s) = false ∧
    headWhite (normalizeText s).reverse = false := by
  have hparts : ∀ p ∈ pySplitWs s, p ≠ [] ∧
      p.all (fun c => !pyWhite c) = true :=
    fun p hp => ⟨(pySplitWs_spec s p hp).1, (pySplitWs_spec s p hp).2.1⟩
  rcases joinSpace_canon (pySplitWs s) hparts with ⟨h1, h2, h3⟩
  unfold normalizeText
  rw [stripStr_id h2 h3]
  exact ⟨h1, h2, h3⟩

theorem headWhite_reverse_cons {c : Char} {l : Str}
    (h : headWhite (c :: l).reverse = false) (hl : l ≠ []) :
    headWhite l.reverse = false := by
  rw [List.reverse_cons] at h
  rwa [headWhite_append_left _ (by simpa using hl)] at h

theorem joinSplit_id :
    ∀ l : Str, singleSpaced l = true → headWhite l = false →
      headWhite l.reverse = false → joinSpace (pySplitWs l) = l
  | [], _, _, _ => rfl
  | [c], _, h2, _ => by
    have hc : pyWhite c = false := by simpa [headWhite] using h2
    rw [pySplitWs_eq_raw, rawSplitWs_cons, if_neg (by simp [hc])]
    simp [rawSplitWs, joinSpace_single]
  | c :: d :: l'', h1, h2, h3 => by
    have hc : pyWhite c = false := by simpa [headWhite] using h2
    have h3' : headWhite (d :: l'').reverse = false :=
      headWhite_reverse_cons h3 (by simp)
    rcases hd : pyWhite d with _ | _
    · -- head of tail is a word character: c merges into its piece
      rcases rawSplitWs_head l'' hd with ⟨p, ps, hraw⟩
      have hmain : joinSpace (pySplitWs (d :: l'')) = d :: l'' :=
        joinSplit_id (d :: l'') (singleSpaced_tail h1)
          (by simpa [headWhite] using hd) h3'
      rw [pySplitWs_eq_raw, rawSplitWs_cons, if_neg (by simp [hc]), hraw]
      rw [pySplitWs_eq_raw, hraw] at hmain
      simp only [List.filter_cons, show ((d :: p ≠ []) : Bool) = true by simp,
        if_true] at hmain ⊢
      rw [show ((c :: d :: p ≠ []) : Bool) = true by simp]
      simp only [if_true]
      rw [joinSpace_cons_head]
      rw [hmain]
    · -- the tail begins with the single space
      have htail : singleSpaced (d :: l'') = true := singleSpaced_tail h1
      rcases l'' with _ | ⟨e, l'''⟩
      · exfalso
        have hpair : d = ' ' := by
          simp only [singleSpaced, Bool.or_eq_true, Bool.not_eq_eq_eq_not,
            Bool.not_true, decide_eq_true_eq] at htail
          rcases htail with hh | hh
          · rw [hd] at hh
            cases hh
          · exact hh
        subst hpair
        rw [show ([c, ' '] : Str).reverse = [' ', c] from by simp] at h3
        simp [headWhite, pyWhite] at h3
      · have hde : d = ' ' ∧ pyWhite e = false := by
          simp only [singleSpaced, Bool.and_eq_true, Bool.or_eq_true,
            Bool.not_eq_eq_eq_not, Bool.not_true, decide_eq_true_eq,
            Bool.and_eq_true] at htail
          rcases htail.1 with hh | hh
          · rw [hd] at hh
            cases hh
          · exact hh
        rcases hde with ⟨hpair, he⟩
        subst hpair
        have hmain : joinSpace (pySplitWs (e :: l''')) = e :: l''' :=
          joinSplit_id (e :: l''')
            (singleSpaced_tail (singleSpaced_tail h1))
            (by simpa [headWhite] using he)
            (headWhite_reverse_cons h3' (by simp))
        rcases rawSplitWs_head l''' he with ⟨p, ps, hraw⟩
        rw [pySplitWs_eq_raw, rawSplitWs_cons, if_neg (by simp [hc]),
          rawSplitWs_cons, if_pos (by simp [pyWhite]), hraw]
        rw [pySplitWs_eq_raw, hraw] at hmain
        simp only [List.filter_cons,
          show ((e :: p ≠ []) : Bool) = true by simp, if_true,
          show (([c] ≠ []) : Bool) = true by simp] at hmain ⊢
        rw [joinSpace_cons_cons]
        rw [hmain]
        rfl

theorem normalizeText_id {l : Str} (h1 : singleSpaced l = true)
    (h2 : headWhite l = false) (h3 : headWhite l.reverse = false) :
    normalizeText l = l := by
  unfold normalizeText
  rw [joinSplit_id l h1 h2 h3, stripStr_id h2 h3]

theorem occursIn_append_sep {a b c s : Char} (hsa : s ≠ a) (hsb : s ≠ b)
    (hsc : s ≠ c) :
    ∀ xs ys : Str,
      occursIn [a, b, c] (xs ++ s :: ys) =
        (occursIn [a, b, c] xs || occursIn [a, b, c] ys)
  | [], ys => by
    simp only [List.nil_append, occursIn]
    rw [show ([a, b, c].isPrefixOf (s :: ys)) = false from by
      cases ys with
      | nil => simp [List.isPrefixOf]
      | cons y ys' =>
        simp only [List.isPrefixOf, Bool.and_eq_false_iff]
        left
        simpa using fun h => hsa h.symm]
    simp [occursIn]
  | [x], ys => by
    have h1 : ([a, b, c].isPrefixOf (x :: s :: ys)) = false := by
      cases ys with
      | nil => simp [List.isPrefixOf]
      | cons y ys' =>
        simp only [List.isPrefixOf, Bool.and_eq_false_iff]
        right
        left
        simpa using fun h => hsb h.symm
    rw [show [x] ++ s :: ys = x :: s :: ys from rfl]
    rw [show occursIn [a, b, c] (x :: s :: ys) =
      (([a, b, c].isPrefixOf (x :: s :: ys)) ||
        occursIn [a, b, c] (s :: ys)) from rfl, h1]
    rw [show occursIn [a, b, c] (s :: ys) =
      (occursIn [a, b, c] ([] : Str) || occursIn [a, b, c] ys) from by
        simpa using occursIn_append_sep hsa hsb hsc [] ys]
    simp [occursIn, List.isPrefixOf]
  | [x1, x2], ys => by
    have h1 : ([a, b, c].isPrefixOf (x1 :: x2 :: s :: ys)) = false := by
      simp only [List.isPrefixOf, Bool.and_eq_false_iff]
      right
      right
      left
      simpa using fun h => hsc h.symm
    rw [show [x1, x2] ++ s :: ys = x1 :: x2 :: s :: ys from rfl]
    rw [show occursIn [a, b, c] (x1 :: x2 :: s :: ys) =
      (([a, b, c].isPrefixOf (x1 :: x2 :: s :: ys)) ||
        occursIn [a, b, c] (x2 :: s :: ys)) from rfl, h1]
    rw [show x2 :: s :: ys = [x2] ++ s :: ys from rfl,
      occursIn_append_sep hsa hsb hsc [x2] ys]
    simp [occursIn, List.isPrefixOf]
  | x1 :: x2 :: x3 :: xs', ys => by
    rw [show (x1 :: x2 :: x3 :: xs') ++ s :: ys =
      x1 :: ((x2 :: x3 :: xs') ++ s :: ys) from rfl]
    rw [show occursIn [a, b, c] (x1 :: ((x2 :: x3 :: xs') ++ s :: ys)) =
      (([a, b, c].isPrefixOf (x1 :: ((x2 :: x3 :: xs') ++ s :: ys))) ||
        occursIn [a, b, c] ((x2 :: x3 :: xs') ++ s :: ys)) from rfl]
    rw [occursIn_append_sep hsa hsb hsc (x2 :: x3 :: xs') ys]
    rw [show occursIn [a, b, c] (x1 :: x2 :: x3 :: xs') =
      (([a, b, c].isPrefixOf (x1 :: x2 :: x3 :: xs')) ||
        occursIn [a, b, c] (x2 :: x3 :: xs')) from rfl]
    have hpre : ([a, b, c].isPrefixOf
        (x1 :: ((x2 :: x3 :: xs') ++ s :: ys))) =
        ([a, b, c].isPrefixOf (x1 :: x2 :: x3 :: xs')) := by
      simp [List.isPrefixOf]
    rw [hpre]
    rw [Bool.or_assoc]

theorem occursIn_joinSpace {a b c : Char} (ha : ' ' ≠ a) (hb : ' ' ≠ b)
    (hc : ' ' ≠ c) :
    ∀ ps : List Str, occursIn [a, b, c] (joinSpace ps) = true →
      ∃ p ∈ ps, occursIn [a, b, c] p = true
  | [], h => by simp [joinSpace_nil, occursIn, List.isPrefixOf] at h
  | [p], h => ⟨p, List.mem_singleton.mpr rfl, by rwa [joinSpace_single] at h⟩
  | p :: q :: rest, h => by
    rw [joinSpace_cons_cons, occursIn_append_sep ha hb hc] at h
    rcases Bool.or_eq_true _ _ |>.mp h with h | h
    · exact ⟨p, List.mem_cons_self _ _, h⟩
    · rcases occursIn_joinSpace ha hb hc (q :: rest) h with ⟨x, hx, hox⟩
      exact ⟨x, List.mem_cons_of_mem _ hx, hox⟩

theorem occursIn_normalizeText {a b c : Char} {s : Str} (ha : ' ' ≠ a)
    (hb : ' ' ≠ b) (hc : ' ' ≠ c)
    (h : occursIn [a, b, c] (normalizeText s) = true) :
    occursIn [a, b, c] s = true := by
  have hparts : ∀ p ∈ pySplitWs s, p ≠ [] ∧
      p.all (fun c => !pyWhite c) = true :=
    fun p hp => ⟨(pySplitWs_spec s p hp).1, (pySplitWs_spec s p hp).2.1⟩
  rcases joinSpace_canon (pySplitWs s) hparts with ⟨_, h2, h3⟩
  rw [show normalizeText s = stripStr (joinSpace (pySplitWs s)) from rfl,
    stripStr_id h2 h3] at h
  rcases occursIn_joinSpace ha hb hc _ h with ⟨p, hp, hop⟩
  exact occursIn_trans hop ((pySplitWs_spec s p hp).2.2)

/-! ### Structure of `splitKeep` -/

theorem splitKeep_nil : splitKeep [] = [] := rfl

theorem splitKeep_cons (c : Char) (l : Str) :
    splitKeep (c :: l) = splitKeepStep c (splitKeep l) := rfl

theorem flatten_splitKeepStep (c : Char) (acc : List Str) :
    (splitKeepStep c acc).flatten = c :: acc.flatten := by
  unfold splitKeepStep
  by_cases h1 : isDashSlash c = true
  · simp [h1]
  · rw [if_neg h1]
    by_cases h2 : pyWhite c = true
    · rw [if_pos h2]
      rcases acc with _ | ⟨p, ps⟩
      · simp
      · by_cases h3 : headWhite p = true
        · simp [h3]
        · simp [h3]
    · rw [if_neg h2]
      rcases acc with _ | ⟨p, ps⟩
      · simp
      · by_cases h3 : headWord p = true
        · simp [h3]
        · simp [h3]

theorem flatten_splitKeep : ∀ l : Str, (splitKeep l).flatten = l
  | [] => rfl
  | c :: l => by
    rw [splitKeep_cons, flatten_splitKeepStep, flatten_splitKeep l]

theorem splitKeep_cons_head (c : Char) (l : Str) :
    ∃ p ps, splitKeep (c :: l) = (c :: p) :: ps := by
  rw [splitKeep_cons]
  unfold splitKeepStep
  by_cases h1 : isDashSlash c = true
  · rw [if_pos h1]
    exact ⟨[], splitKeep l, rfl⟩
  · rw [if_neg h1]
    by_cases h2 : pyWhite c = true
    · rw [if_pos h2]
      rcases hacc : splitKeep l with _ | ⟨p, ps⟩
      · exact ⟨[], [], rfl⟩
      · by_cases h3 : headWhite p = true
        · exact ⟨p, ps, by simp [h3]⟩
        · exact ⟨[], p :: ps, by simp [h3]⟩
    · rw [if_neg h2]
      rcases hacc : splitKeep l with _ | ⟨p, ps⟩
      · exact ⟨[], [], rfl⟩
      · by_cases h3 : headWord p = true
        · exact ⟨p, ps, by simp [h3]⟩
        · exact ⟨[], p :: ps, by simp [h3]⟩

theorem partsGood_pair_eq (p q : Str) (ps : List Str) :
    partsGood (p :: q :: ps) =
      ((isWordPart p || decide (p = ['-']) || decide (p = ['/']) ||
          decide (p = [' '])) &&
        !(isWordPart p && isWordPart q) &&
        !(decide (p = [' ']) && decide (q = [' '])) &&
        partsGood (q :: ps)) := rfl

theorem partsGood_single_eq (p : Str) :
    partsGood [p] =
      (isWordPart p || decide (p = ['-']) || decide (p = ['/']) ||
        decide (p = [' '])) := rfl

theorem partsGood_tail {p : Str} {ps : List Str}
    (h : partsGood (p :: ps) = true) : partsGood ps = true := by
  cases ps with
  | nil => rfl
  | cons q ps' =>
    rw [partsGood_pair_eq] at h
    exact (Bool.and_eq_true _ _ |>.mp h).2

theorem partsGood_partOk {p : Str} {ps : List Str}
    (h : partsGood (p :: ps) = true) :
    (isWordPart p || decide (p = ['-']) || decide (p = ['/']) ||
      decide (p = [' '])) = true := by
  cases ps with
  | nil => rwa [partsGood_single_eq] at h
  | cons q ps' =>
    rw [partsGood_pair_eq] at h
    exact (Bool.and_eq_true _ _ |>.mp
      (Bool.and_eq_true _ _ |>.mp
        (Bool.and_eq_true _ _ |>.mp h).1).1).1

theorem partsGood_adj {p q : Str} {ps : List Str}
    (h : partsGood (p :: q :: ps) = true) :
    (isWordPart p && isWordPart q) = false ∧
      (decide (p = [' ']) && decide (q = [' '])) = false := by
  rw [partsGood_pair_eq] at h
  constructor
  · have := (Bool.and_eq_true _ _ |>.mp
      (Bool.and_eq_true _ _ |>.mp
        (Bool.and_eq_true _ _ |>.mp h).1).1).2
    rwa [Bool.not_eq_true'] at this
  · have := (Bool.and_eq_true _ _ |>.mp
      (Bool.and_eq_true _ _ |>.mp h).1).2
    rwa [Bool.not_eq_true'] at this

theorem partsGood_mk {p : Str} {ps : List Str}
    (h1 : (isWordPart p || decide (p = ['-']) || decide (p = ['/']) ||
      decide (p = [' '])) = true)
    (h2 : ∀ q ps', ps = q :: ps' →
      (isWordPart p && isWordPart q) = false ∧
        (decide (p = [' ']) && decide (q = [' '])) = false)
    (h3 : partsGood ps = true) : partsGood (p :: ps) = true := by
  cases ps with
  | nil => rwa [partsGood_single_eq]
  | cons q ps' =>
    rcases h2 q ps' rfl with ⟨ha, hb⟩
    rw [partsGood_pair_eq]
    simp only [Bool.and_eq_true]
    exact ⟨⟨⟨h1, by simp [ha]⟩, by simp [hb]⟩, h3⟩

theorem isWordPart_singleton {c : Char} (h : wordChar c = true) :
    isWordPart [c] = true := by
  simp [isWordPart, h]

theorem isWordPart_cons {c : Char} {p : Str} (hc : wordChar c = true)
    (hp : isWordPart p = true) : isWordPart (c :: p) = true := by
  simp only [isWordPart, Bool.and_eq_true, List.all_cons] at hp ⊢
  exact ⟨by simp, hc, hp.2⟩

theorem not_isWordPart_dash : isWordPart ['-'] = false := by decide

theorem not_isWordPart_slash : isWordPart ['/'] = false := by decide

theorem not_isWordPart_space : isWordPart [' '] = false := by decide

theorem partOk_word_of_headWord {p : Str} {ps : List Str}
    (h : partsGood (p :: ps) = true) (hh : headWord p = true) :
    isWordPart p = true := by
  have hOk := partsGood_partOk h
  simp only [Bool.or_eq_true, decide_eq_true_eq] at hOk
  rcases hOk with ((hw | hd) | hs) | hsp
  · exact hw
  · rw [hd] at hh
    simp [headWord, isDashSlash] at hh
  · rw [hs] at hh
    simp [headWord, isDashSlash] at hh
  · rw [hsp] at hh
    simp [headWord, pyWhite] at hh

theorem splitKeep_partsGood :
    ∀ l : Str, singleSpaced l = true → partsGood (splitKeep l) = true
  | [], _ => rfl
  | [c], h => by
    rw [show splitKeep [c] = splitKeepStep c [] from rfl]
    unfold splitKeepStep
    by_cases h1 : isDashSlash c = true
    · rw [if_pos h1]
      rcases (by simpa [isDashSlash] using h1 : c = '-' ∨ c = '/') with
        hd | hd
      · rw [hd]; decide
      · rw [hd]; decide
    · rw [if_neg h1]
      by_cases h2 : pyWhite c = true
      · rw [if_pos h2]
        have hc : c = ' ' := by
          simp only [singleSpaced, Bool.or_eq_true, Bool.not_eq_eq_eq_not,
            Bool.not_true, decide_eq_true_eq] at h
          rcases h with hh | hh
          · rw [h2] at hh
            cases hh
          · exact hh
        rw [hc]; decide
      · rw [if_neg h2]
        have hw : wordChar c = true := by
          simp only [wordChar, Bool.and_eq_true, Bool.not_eq_eq_eq_not,
            Bool.not_true]
          exact ⟨by simpa using h2, by simpa using h1⟩
        rw [partsGood_single_eq]
        simp [isWordPart_singleton hw]
  | c :: d :: l'', h => by
    have htail : singleSpaced (d :: l'') = true := singleSpaced_tail h
    have ih0 : partsGood (splitKeep (d :: l'')) = true :=
      splitKeep_partsGood (d :: l'') htail
    rcases splitKeep_cons_head d l'' with ⟨p, ps, hsk⟩
    have ih : partsGood ((d :: p) :: ps) = true := by rwa [hsk] at ih0
    rw [show splitKeep (c :: d :: l'') =
      splitKeepStep c (splitKeep (d :: l'')) from rfl, hsk]
    unfold splitKeepStep
    by_cases h1 : isDashSlash c = true
    · rw [if_pos h1]
      have hnw : isWordPart [c] = false := by
        rcases (by simpa [isDashSlash] using h1 : c = '-' ∨ c = '/') with
          hd | hd
        · rw [hd]; decide
        · rw [hd]; decide
      have hns : ¬([c] = ([' '] : Str)) := by
        rcases (by simpa [isDashSlash] using h1 : c = '-' ∨ c = '/') with
          hd | hd
        · rw [hd]; decide
        · rw [hd]; decide
      apply partsGood_mk
      · rcases (by simpa [isDashSlash] using h1 : c = '-' ∨ c = '/') with
          hd | hd
        · rw [hd]; decide
        · rw [hd]; decide
      · intro q ps' hq
        cases hq
        exact ⟨by simp [hnw], by simp [hns]⟩
      · exact ih
    · rw [if_neg h1]
      by_cases h2 : pyWhite c = true
      · rw [if_pos h2]
        have hcd : c = ' ' ∧ pyWhite d = false := by
          simp only [singleSpaced, Bool.and_eq_true, Bool.or_eq_true,
            Bool.not_eq_eq_eq_not, Bool.not_true, decide_eq_true_eq,
            Bool.and_eq_true] at h
          rcases h.1 with hh | hh
          · rw [h2] at hh
            cases hh
          · exact ⟨hh.1, by simpa using hh.2⟩
        have hhw : headWhite (d :: p) = false := by
          simpa [headWhite] using hcd.2
        show partsGood (if headWhite (d :: p) = true then (c :: d :: p) :: ps
          else [c] :: (d :: p) :: ps) = true
        rw [if_neg (by simp [hhw])]
        apply partsGood_mk
        · rw [hcd.1]
          simp
        · intro q ps' hq
          cases hq
          refine ⟨by rw [hcd.1]; simp [not_isWordPart_space], ?_⟩
          have hdp : ¬((d :: p) = ([' '] : Str)) := by
            intro hh
            have hd' : d = ' ' := (List.cons_eq_cons.mp hh).1
            rw [hd'] at hcd
            simp [pyWhite] at hcd
          simp [hdp]
        · exact ih
      · rw [if_neg h2]
        have hw : wordChar c = true := by
          simp only [wordChar, Bool.and_eq_true, Bool.not_eq_eq_eq_not,
            Bool.not_true]
          exact ⟨by simpa using h2, by simpa using h1⟩
        show partsGood (if headWord (d :: p) = true then (c :: d :: p) :: ps
          else [c] :: (d :: p) :: ps) = true
        by_cases h3 : headWord (d :: p) = true
        · rw [if_pos h3]
          have hdp : isWordPart (d :: p) = true :=
            partOk_word_of_headWord ih h3
          have hmerged : isWordPart (c :: d :: p) = true :=
            isWordPart_cons hw hdp
          cases ps with
          | nil =>
            rw [partsGood_single_eq]
            simp [hmerged]
          | cons q ps' =>
            have hadj := partsGood_adj ih
            apply partsGood_mk
            · simp [hmerged]
            · intro q' ps'' hq
              cases hq
              refine ⟨?_, ?_⟩
              · rcases Bool.and_eq_false_iff.mp hadj.1 with hh | hh
                · rw [hdp] at hh
                  cases hh
                · simp [hh]
              · have : ¬((c :: d :: p) = ([' '] : Str)) := by
                  intro hh
                  cases (List.cons_eq_cons.mp hh).2
                simp [this]
            · exact partsGood_tail ih
        · rw [if_neg h3]
          have hdw : wordChar d = false := by
            rcases hv : wordChar d with _ | _
            · rfl
            · exfalso
              apply h3
              simp only [headWord]
              simp only [wordChar, Bool.and_eq_true] at hv
              simp [hv.1, hv.2]
          have hdpnw : isWordPart (d :: p) = false := by
            rcases hv : isWordPart (d :: p) with _ | _
            · rfl
            · exfalso
              simp only [isWordPart, Bool.and_eq_true, List.all_cons] at hv
              rw [hv.2.1] at hdw
              cases hdw
          apply partsGood_mk
          · simp [isWordPart_singleton hw]
          · intro q ps' hq
            cases hq
            refine ⟨by simp [hdpnw], ?_⟩
            have : ¬([c] = ([' '] : Str)) := by
              intro hh
              have : c = ' ' := (List.cons_eq_cons.mp hh).1
              rw [this] at h2
              simp [pyWhite] at h2
            simp [this]
          · exact ih

theorem flatten_ends_space :
    ∀ ps : List Str, ps.getLast? = some [' '] →
      headWhite (ps.flatten).reverse = true
  | [], h => by cases h
  | [p], h => by
    have hp : p = [' '] := by simpa using h
    subst hp
    decide
  | p :: q :: rest, h => by
    have ih : headWhite ((q :: rest).flatten).reverse = true :=
      flatten_ends_space (q :: rest) (by simpa [List.getLast?_cons_cons]
        using h)
    have hne : ((q :: rest).flatten).reverse ≠ [] := by
      intro hh
      rw [hh] at ih
      simp [headWhite] at ih
    rw [show (p :: q :: rest).flatten = p ++ (q :: rest).flatten from by
      simp]
    rw [List.reverse_append, headWhite_append_left _ hne]
    exact ih

theorem splitKeep_last_not_space {l : Str}
    (h : headWhite l.reverse = false) :
    (splitKeep l).getLast? ≠ some [' '] := by
  intro hlast
  have := flatten_ends_space (splitKeep l) hlast
  rw [flatten_splitKeep] at this
  rw [this] at h
  cases h

theorem splitKeepStep_dash (c : Char) (acc : List Str)
    (h : isDashSlash c = true) : splitKeepStep c acc = [c] :: acc := by
  unfold splitKeepStep
  rw [if_pos h]

theorem splitKeepStep_space (acc : List Str)
    (h : acc = [] ∨ ∃ q qs, acc = q :: qs ∧ headWhite q = false) :
    splitKeepStep ' ' acc = [' '] :: acc := by
  unfold splitKeepStep
  rw [if_neg (by decide), if_pos (by decide)]
  rcases h with h | ⟨q, qs, hacc, hq⟩
  · subst h
    rfl
  · subst hacc
    show (if headWhite q = true then ((' ' :: q) :: qs)
      else [' '] :: q :: qs) = [' '] :: q :: qs
    rw [if_neg (by simp [hq])]

theorem foldr_word :
    ∀ (p : Str) (acc : List Str), p ≠ [] → p.all wordChar = true →
      (acc = [] ∨ ∃ q qs, acc = q :: qs ∧ headWord q = false) →
      p.foldr splitKeepStep acc = p :: acc
  | [], _, hne, _, _ => absurd rfl hne
  | [c], acc, _, hall, hacc => by
    have hc : wordChar c = true := by simpa using hall
    have hw : pyWhite c = false ∧ isDashSlash c = false := by
      simp only [wordChar, Bool.and_eq_true, Bool.not_eq_eq_eq_not,
        Bool.not_true] at hc
      exact hc
    show splitKeepStep c acc = [c] :: acc
    unfold splitKeepStep
    rw [if_neg (by simp [hw.2]), if_neg (by simp [hw.1])]
    rcases hacc with h | ⟨q, qs, hacc, hq⟩
    · subst h
      rfl
    · subst hacc
      show (if headWord q = true then ((c :: q) :: qs)
        else [c] :: q :: qs) = [c] :: q :: qs
      rw [if_neg (by simp [hq])]
  | c :: c2 :: p', acc, _, hall, hacc => by
    simp only [List.all_cons, Bool.and_eq_true] at hall
    have hrest : (c2 :: p').foldr splitKeepStep acc = (c2 :: p') :: acc :=
      foldr_word (c2 :: p') acc (by simp)
        (by simp [hall.2.1, hall.2.2]) hacc
    show splitKeepStep c ((c2 :: p').foldr splitKeepStep acc) = _
    rw [hrest]
    have hc : pyWhite c = false ∧ isDashSlash c = false := by
      have := hall.1
      simp only [wordChar, Bool.and_eq_true, Bool.not_eq_eq_eq_not,
        Bool.not_true] at this
      exact this
    unfold splitKeepStep
    rw [if_neg (by simp [hc.2]), if_neg (by simp [hc.1])]
    show (if headWord (c2 :: p') = true then ((c :: c2 :: p') :: acc)
      else [c] :: (c2 :: p') :: acc) = (c :: c2 :: p') :: acc
    rw [if_pos (by
      simp only [headWord]
      have := hall.2.1
      simp only [wordChar, Bool.and_eq_true] at this
      simp [this.1, this.2])]

theorem headWord_false_of_not_word {q : Str} {ps : List Str}
    (hOk : partsGood (q :: ps) = true) (hnw : isWordPart q = false) :
    headWord q = false := by
  have h := partsGood_partOk hOk
  simp only [Bool.or_eq_true, decide_eq_true_eq] at h
  rcases h with ((hw | hd) | hs) | hsp
  · rw [hw] at hnw
    cases hnw
  · rw [hd]
    decide
  · rw [hs]
    decide
  · rw [hsp]
    decide

theorem headWhite_false_of_not_space {q : Str} {ps : List Str}
    (hOk : partsGood (q :: ps) = true) (hns : ¬(q = [' '])) :
    headWhite q = false := by
  have h := partsGood_partOk hOk
  simp only [Bool.or_eq_true, decide_eq_true_eq] at h
  rcases h with ((hw | hd) | hs) | hsp
  · simp only [isWordPart, Bool.and_eq_true] at hw
    cases q with
    | nil => rfl
    | cons c l =>
      have := List.all_eq_true.mp hw.2 c (List.mem_cons_self _ _)
      simp only [wordChar, Bool.and_eq_true, Bool.not_eq_eq_eq_not,
        Bool.not_true] at this
      simpa [headWhite] using this.1
  · rw [hd]
    decide
  · rw [hs]
    decide
  · exact absurd hsp hns

theorem splitKeep_roundTrip :
    ∀ ps : List Str, partsGood ps = true → splitKeep ps.flatten = ps
  | [], _ => rfl
  | p :: ps', h => by
    have htail : partsGood ps' = true := partsGood_tail h
    have ih : splitKeep ps'.flatten = ps' := splitKeep_roundTrip ps' htail
    rw [show (p :: ps').flatten = p ++ ps'.flatten from by simp]
    rw [show splitKeep (p ++ ps'.flatten) =
      p.foldr splitKeepStep (splitKeep ps'.flatten) from by
        unfold splitKeep
        rw [List.foldr_append]]
    rw [ih]
    have hOk := partsGood_partOk h
    simp only [Bool.or_eq_true, decide_eq_true_eq] at hOk
    rcases hOk with ((hw | hd) | hs) | hsp
    · -- word piece
      simp only [isWordPart, Bool.and_eq_true] at hw
      apply foldr_word p ps' (by simpa using hw.1) hw.2
      cases ps' with
      | nil => exact Or.inl rfl
      | cons q qs =>
        refine Or.inr ⟨q, qs, rfl, ?_⟩
        have hadj := (partsGood_adj h).1
        have hqnw : isWordPart q = false := by
          rcases Bool.and_eq_false_iff.mp hadj with hh | hh
          · rw [show isWordPart p = true from by
              simp [isWordPart, hw.1, hw.2]] at hh
            cases hh
          · exact hh
        exact headWord_false_of_not_word htail hqnw
    · subst hd
      exact splitKeepStep_dash '-' ps' (by decide)
    · subst hs
      exact splitKeepStep_dash '/' ps' (by decide)
    · subst hsp
      show splitKeepStep ' ' ps' = [' '] :: ps'
      apply splitKeepStep_space
      cases ps' with
      | nil => exact Or.inl rfl
      | cons q qs =>
        refine Or.inr ⟨q, qs, rfl, ?_⟩
        have hadj := (partsGood_adj h).2
        have hqns : ¬(q = [' ']) := by
          rcases Bool.and_eq_false_iff.mp hadj with hh | hh
          · simp at hh
          · simpa using hh
        exact headWhite_false_of_not_space htail hqns

theorem isWordPart_wsfree {p : Str} (h : isWordPart p = true) :
    p.all (fun c => !pyWhite c) = true := by
  simp only [isWordPart, Bool.and_eq_true] at h
  refine List.all_eq_true.mpr fun c hc => ?_
  have := List.all_eq_true.mp h.2 c hc
  simp only [wordChar, Bool.and_eq_true] at this
  exact this.1

theorem partOk_wsfree_of_not_space {p : Str} {ps : List Str}
    (hOk : partsGood (p :: ps) = true) (hns : ¬(p = [' '])) :
    p.all (fun c => !pyWhite c) = true := by
  have h := partsGood_partOk hOk
  simp only [Bool.or_eq_true, decide_eq_true_eq] at h
  rcases h with ((hw | hd) | hs) | hsp
  · exact isWordPart_wsfree hw
  · rw [hd]
    decide
  · rw [hs]
    decide
  · exact absurd hsp hns

theorem partOk_ne_nil {p : Str} {ps : List Str}
    (hOk : partsGood (p :: ps) = true) : p ≠ [] := by
  have h := partsGood_partOk hOk
  simp only [Bool.or_eq_true, decide_eq_true_eq] at h
  rcases h with ((hw | hd) | hs) | hsp
  · simp only [isWordPart, Bool.and_eq_true] at hw
    simpa using hw.1
  · rw [hd]; simp
  · rw [hs]; simp
  · rw [hsp]; simp

theorem flatten_singleSpaced :
    ∀ ps : List Str, partsGood ps = true →
      ps.getLast? ≠ some [' '] → singleSpaced ps.flatten = true
  | [], _, _ => rfl
  | [p], h, hlast => by
    have hns : ¬(p = [' ']) := fun hh => hlast (by rw [hh]; rfl)
    rw [show ([p] : List Str).flatten = p ++ [] from by simp,
      List.append_nil]
    exact singleSpaced_of_wsfree (partOk_wsfree_of_not_space h hns)
  | p :: q :: rest, h, hlast => by
    have htail : partsGood (q :: rest) = true := partsGood_tail h
    have hlast' : (q :: rest).getLast? ≠ some [' '] := by
      rwa [List.getLast?_cons_cons] at hlast
    have ih : singleSpaced (q :: rest).flatten = true :=
      flatten_singleSpaced (q :: rest) htail hlast'
    rw [show (p :: q :: rest).flatten = p ++ (q :: rest).flatten from by
      simp]
    by_cases hsp : p = [' ']
    · subst hsp
      have hqns : ¬(q = [' ']) := by
        have := (partsGood_adj h).2
        rcases Bool.and_eq_false_iff.mp this with hh | hh
        · simp at hh
        · simpa using hh
      have hqhw : headWhite q = false :=
        headWhite_false_of_not_space htail hqns
      have hqne : q ≠ [] := partOk_ne_nil htail
      obtain ⟨d, l, hq⟩ : ∃ d l, q = d :: l := by
        cases q with
        | nil => exact absurd rfl hqne
        | cons d l => exact ⟨d, l, rfl⟩
      have hd : pyWhite d = false := by
        rw [hq] at hqhw
        simpa [headWhite] using hqhw
      rw [show (q :: rest).flatten = q ++ rest.flatten from by simp, hq]
        at ih ⊢
      show singleSpaced (' ' :: d :: (l ++ rest.flatten)) = true
      simp only [singleSpaced, Bool.and_eq_true]
      constructor
      · simp [hd]
      · exact ih
    · rw [singleSpaced_wsfree_append _
        (partOk_wsfree_of_not_space h hsp)]
      exact ih

theorem flatten_headWhite {p : Str} {ps : List Str}
    (h : partsGood (p :: ps) = true) (hns : ¬(p = [' '])) :
    headWhite (p :: ps).flatten = false := by
  rw [show (p :: ps).flatten = p ++ ps.flatten from by simp,
    headWhite_append_left _ (partOk_ne_nil h)]
  exact headWhite_false_of_not_space h hns

theorem flatten_lastWhite :
    ∀ ps : List Str, partsGood ps = true → ps.getLast? ≠ some [' '] →
      headWhite ps.flatten.reverse = false
  | [], _, _ => rfl
  | [p], h, hlast => by
    have hns : ¬(p = [' ']) := fun hh => hlast (by rw [hh]; rfl)
    have hws := partOk_wsfree_of_not_space h hns
    rw [show ([p] : List Str).flatten = p ++ [] from by simp,
      List.append_nil]
    rcases hrev : p.reverse with _ | ⟨c, l⟩
    · rfl
    · have hc : c ∈ p := by
        have : c ∈ p.reverse := by rw [hrev]; exact List.mem_cons_self _ _
        simpa using this
      have := List.all_eq_true.mp hws c hc
      simp only [headWhite]
      simpa using this
  | p :: q :: rest, h, hlast => by
    have htail : partsGood (q :: rest) = true := partsGood_tail h
    have hlast' : (q :: rest).getLast? ≠ some [' '] := by
      rwa [List.getLast?_cons_cons] at hlast
    have ih : headWhite (q :: rest).flatten.reverse = false :=
      flatten_lastWhite (q :: rest) htail hlast'
    have hne : (q :: rest).flatten ≠ [] := by
      intro hh
      have : q ++ rest.flatten = [] := by
        rw [show (q :: rest).flatten = q ++ rest.flatten from by simp]
          at hh
        exact hh
      exact partOk_ne_nil htail (List.append_eq_nil.mp this).1
    rw [show (p :: q :: rest).flatten = p ++ (q :: rest).flatten from by
      simp]
    rw [List.reverse_append, headWhite_append_left _
      (by simp only [ne_eq, List.reverse_eq_nil_iff]; exact hne)]
    exact ih

/-! ### Word pieces are preserved by casing and replacement -/

theorem replace3_all_wordChar {a b c : Char} {r : Str}
    (hr : r.all wordChar = true) :
    ∀ l : Str, l.all wordChar = true →
      (replace3 a b c r l).all wordChar = true
  | [], _ => rfl
  | [x], h => by rwa [replace3_one]
  | [x, y], h => by rwa [replace3_two]
  | x :: y :: z :: rest, h => by
    simp only [List.all_cons, Bool.and_eq_true] at h
    by_cases hm : x = a ∧ y = b ∧ z = c
    · rw [replace3_cons3_pos r rest hm]
      rw [List.all_append]
      rw [hr, replace3_all_wordChar hr rest h.2.2.2]
      rfl
    · rw [replace3_cons3_neg r rest hm]
      simp only [List.all_cons, Bool.and_eq_true]
      refine ⟨h.1, ?_⟩
      have := @replace3_all_wordChar a b c r hr (y :: z :: rest)
        (by simp [h.2.1, h.2.2.1, h.2.2.2])
      simpa using this

theorem replace3_ne_nil {a b c : Char} {r : Str} (hr : r ≠ []) :
    ∀ l : Str, l ≠ [] → replace3 a b c r l ≠ []
  | [], h => absurd rfl h
  | [x], _ => by rw [replace3_one]; simp
  | [x, y], _ => by rw [replace3_two]; simp
  | x :: y :: z :: rest, _ => by
    by_cases hm : x = a ∧ y = b ∧ z = c
    · rw [replace3_cons3_pos r rest hm]
      intro hh
      exact hr (List.append_eq_nil.mp hh).1
    · rw [replace3_cons3_neg r rest hm]
      simp

theorem replace3_isWordPart {a b c : Char} {r : Str}
    (hr : r.all wordChar = true) (hrne : r ≠ []) {p : Str}
    (hp : isWordPart p = true) : isWordPart (replace3 a b c r p) = true := by
  simp only [isWordPart, Bool.and_eq_true] at hp ⊢
  constructor
  · have := @replace3_ne_nil a b c r hrne p (by simpa using hp.1)
    simpa using this
  · exact @replace3_all_wordChar a b c r hr p hp.2

theorem stripStr_id_of_wsfree {l : Str}
    (h : l.all (fun c => !pyWhite c) = true) : stripStr l = l := by
  rcases l with _ | ⟨c, l'⟩
  · rfl
  · apply stripStr_id
    · simp only [List.all_cons, Bool.and_eq_true] at h
      simpa [headWhite] using h.1
    · rcases hrev : (c :: l').reverse with _ | ⟨d, m⟩
      · rfl
      · have hd : d ∈ c :: l' := by
          have hmem : d ∈ (c :: l').reverse := by
            rw [hrev]
            exact List.mem_cons_self _ _
          exact List.mem_reverse.mp hmem
        have := List.all_eq_true.mp h d hd
        simp only [headWhite]
        simpa using this

theorem isWordPart_not_sep {p : Str} (h : isWordPart p = true) :
    (p.all pyWhite || decide (p = ['-']) || decide (p = ['/'])) = false := by
  simp only [isWordPart, Bool.and_eq_true] at h
  have hne : p ≠ [] := by simpa using h.1
  obtain ⟨c, l, hp⟩ : ∃ c l, p = c :: l := by
    cases p with
    | nil => exact absurd rfl hne
    | cons c l => exact ⟨c, l, rfl⟩
  subst hp
  have hc := List.all_eq_true.mp h.2 c (List.mem_cons_self _ _)
  simp only [wordChar, Bool.and_eq_true, Bool.not_eq_eq_eq_not,
    Bool.not_true] at hc
  simp only [Bool.or_eq_false_iff]
  refine ⟨⟨?_, ?_⟩, ?_⟩
  · simp only [List.all_cons, hc.1]
    rfl
  · simp only [decide_eq_false_iff_not]
    intro hh
    have : c = '-' := (List.cons_eq_cons.mp hh).1
    rw [this] at hc
    simp [isDashSlash] at hc
  · simp only [decide_eq_false_iff_not]
    intro hh
    have : c = '/' := (List.cons_eq_cons.mp hh).1
    rw [this] at hc
    simp [isDashSlash] at hc

theorem smartTitle_word {t : Str} (A : List Str)
    (h : isWordPart t = true) :
    isWordPart (smartTitleToken t A) = true := by
  have hws : t.all (fun c => !pyWhite c) = true := isWordPart_wsfree h
  have hstrip : stripStr t = t := stripStr_id_of_wsfree hws
  have hne : t ≠ [] := by
    simp only [isWordPart, Bool.and_eq_true] at h
    simpa using h.1
  have hsep := isWordPart_not_sep h
  simp only [Bool.or_eq_false_iff] at hsep
  unfold smartTitleToken
  rw [hstrip]
  rw [if_neg (by simpa using hne)]
  rw [if_neg (by
    simp only [Bool.or_eq_true, decide_eq_true_eq]
    rintro ((hh | hh) | hh)
    · rw [hsep.1.1] at hh
      cases hh
    · exact absurd (by simpa using hh) (by
        simpa using hsep.1.2)
    · exact absurd (by simpa using hh) (by
        simpa using hsep.2))]
  by_cases hacr : looksLikeAcronym t A = true
  · rw [if_pos hacr]
    by_cases hco : upperStr t = strL "CO₂"
    · rw [if_pos hco]
      decide
    · rw [if_neg hco]
      simp only [isWordPart, Bool.and_eq_true]
      constructor
      · simp only [upperStr]
        have hmne : List.map Char.toUpper t ≠ [] :=
          fun hh => hne (List.map_eq_nil_iff.mp hh)
        simpa [List.isEmpty_iff] using hmne
      · simp only [upperStr]
        rw [List.all_map]
        refine List.all_eq_true.mpr fun c hc => ?_
        simp only [Function.comp]
        rw [wordChar_toUpper]
        exact List.all_eq_true.mp
          (by simp only [isWordPart, Bool.and_eq_true] at h; exact h.2) c hc
  · rw [if_neg hacr]
    by_cases hmix : ((t.drop 1).any Char.isUpper && t.any Char.isLower) = true
    · rw [if_pos (by simpa using hmix)]
      exact h
    · rw [if_neg (by simpa using hmix)]
      obtain ⟨c, l, hp⟩ : ∃ c l, t = c :: l := by
        cases t with
        | nil => exact absurd rfl hne
        | cons c l => exact ⟨c, l, rfl⟩
      subst hp
      show isWordPart (Char.toUpper c :: lowerStr l) = true
      simp only [isWordPart, Bool.and_eq_true, List.all_cons]
      simp only [isWordPart, Bool.and_eq_true, List.all_cons] at h
      refine ⟨by simp, ?_, ?_⟩
      · rw [wordChar_toUpper]
        exact h.2.1
      · simp only [lowerStr]
        rw [List.all_map]
        refine List.all_eq_true.mpr fun d hd => ?_
        simp only [Function.comp]
        rw [wordChar_toLower]
        exact List.all_eq_true.mp h.2.2 d hd

theorem smartTitle_space (A : List Str) :
    smartTitleToken [' '] A = [' '] := rfl

theorem smartTitle_dash (A : List Str) :
    smartTitleToken ['-'] A = ['-'] := rfl

theorem smartTitle_slash (A : List Str) :
    smartTitleToken ['/'] A = ['/'] := rfl

theorem partsGood_map {f : Str → Str}
    (hword : ∀ p, isWordPart p = true → isWordPart (f p) = true)
    (hdash : f ['-'] = ['-']) (hslash : f ['/'] = ['/'])
    (hspace : f [' '] = [' ']) :
    ∀ ps : List Str, partsGood ps = true → partsGood (ps.map f) = true := by
  have hclass : ∀ p ps', partsGood (p :: ps') = true →
      (isWordPart (f p) = true ∧ isWordPart p = true) ∨ f p = ['-'] ∨
        f p = ['/'] ∨ (f p = [' '] ∧ p = [' ']) := by
    intro p ps' hp
    have h := partsGood_partOk hp
    simp only [Bool.or_eq_true, decide_eq_true_eq] at h
    rcases h with ((hw | hd) | hs) | hsp
    · exact Or.inl ⟨hword p hw, hw⟩
    · subst hd
      exact Or.inr (Or.inl hdash)
    · subst hs
      exact Or.inr (Or.inr (Or.inl hslash))
    · subst hsp
      exact Or.inr (Or.inr (Or.inr ⟨hspace, rfl⟩))
  intro ps
  induction ps with
  | nil => intro; rfl
  | cons p ps' ih =>
    intro h
    have htail := partsGood_tail h
    rw [List.map_cons]
    apply partsGood_mk
    · rcases hclass p ps' h with ⟨hw, _⟩ | hd | hs | ⟨hsp, _⟩
      · simp [hw]
      · simp [hd]
      · simp [hs]
      · simp [hsp]
    · intro q qs hq
      obtain ⟨q0, qs0, hps', hfq⟩ : ∃ q0 qs0, ps' = q0 :: qs0 ∧ f q0 = q := by
        cases ps' with
        | nil => cases hq
        | cons q0 qs0 =>
          rw [List.map_cons] at hq
          exact ⟨q0, qs0, rfl, ((List.cons_eq_cons.mp hq).1).symm.symm⟩
      subst hps'
      have hadj := partsGood_adj h
      constructor
      · rcases hclass p (q0 :: qs0) h with ⟨hw, hworig⟩ | hd | hs | ⟨hsp, _⟩
        · rcases hclass q0 qs0 htail with ⟨hqw, hqorig⟩ | hqd | hqs |
            ⟨hqsp, _⟩
          · exfalso
            rcases Bool.and_eq_false_iff.mp hadj.1 with hh | hh
            · rw [hworig] at hh
              cases hh
            · rw [hqorig] at hh
              cases hh
          · rw [← hfq, hqd]
            simp [not_isWordPart_dash]
          · rw [← hfq, hqs]
            simp [not_isWordPart_slash]
          · rw [← hfq, hqsp]
            simp [not_isWordPart_space]
        · rw [hd]
          simp [not_isWordPart_dash]
        · rw [hs]
          simp [not_isWordPart_slash]
        · rw [hsp]
          simp [not_isWordPart_space]
      · rcases hclass p (q0 :: qs0) h with ⟨hw, _⟩ | hd | hs | ⟨hsp, hporig⟩
        · have : ¬(f p = ([' '] : Str)) := by
            intro hh
            rw [hh] at hw
            rw [not_isWordPart_space] at hw
            cases hw
          simp [this]
        · rw [hd]
          simp
        · rw [hs]
          simp
        · rcases hclass q0 qs0 htail with ⟨hqw, _⟩ | hqd | hqs |
            ⟨hqsp, hqorig⟩
          · have : ¬(f q0 = ([' '] : Str)) := by
              intro hh
              rw [hh] at hqw
              rw [not_isWordPart_space] at hqw
              cases hqw
            rw [← hfq]
            simp [this]
          · rw [← hfq, hqd]
            simp
          · rw [← hfq, hqs]
            simp
          · exfalso
            rcases Bool.and_eq_false_iff.mp hadj.2 with hh | hh
            · rw [hporig] at hh
              simp at hh
            · rw [hqorig] at hh
              simp at hh
    · exact ih htail

theorem sep_ne_pattern {a s : Char} (ha : wordChar a = true)
    (hs : wordChar s = false) : s ≠ a := by
  intro hh
  rw [hh, ha] at hs
  cases hs

theorem replace3_flatten {a b c : Char} {r : Str} (ha : wordChar a = true)
    (hb : wordChar b = true) (hc : wordChar c = true) :
    ∀ ps : List Str, partsGood ps = true →
      replace3 a b c r ps.flatten = (ps.map (replace3 a b c r)).flatten
  | [], _ => rfl
  | [p], h => by
    rw [show ([p] : List Str).flatten = p ++ [] from by simp,
      List.append_nil]
    simp
  | p :: q :: rest, h => by
    have htail : partsGood (q :: rest) = true := partsGood_tail h
    have hOk := partsGood_partOk h
    simp only [Bool.or_eq_true, decide_eq_true_eq] at hOk
    have hsepword : ∀ s : Char, wordChar s = false →
        replace3 a b c r ([s] ++ (q :: rest).flatten) =
          [s] ++ replace3 a b c r (q :: rest).flatten := by
      intro s hs
      rw [show ([s] : Str) ++ (q :: rest).flatten =
        s :: (q :: rest).flatten from rfl]
      rw [replace3_cons_sep r (sep_ne_pattern ha hs)]
      rfl
    rcases hOk with ((hw | hd) | hs) | hsp
    · -- word piece followed by a separator piece
      have hqOk := partsGood_partOk htail
      simp only [Bool.or_eq_true, decide_eq_true_eq] at hqOk
      have hqsep : ∃ s : Char, q = [s] ∧ wordChar s = false := by
        rcases hqOk with ((hqw | hqd) | hqs) | hqsp
        · exfalso
          rcases Bool.and_eq_false_iff.mp (partsGood_adj h).1 with hh | hh
          · rw [hw] at hh
            cases hh
          · rw [hqw] at hh
            cases hh
        · exact ⟨'-', hqd, by decide⟩
        · exact ⟨'/', hqs, by decide⟩
        · exact ⟨' ', hqsp, by decide⟩
      rcases hqsep with ⟨s, hq, hsw⟩
      have hrest2 : partsGood rest = true := partsGood_tail htail
      rw [show (p :: q :: rest).flatten = p ++ (q :: rest).flatten from by
        simp]
      rw [show (q :: rest).flatten = q ++ rest.flatten from by simp, hq]
      rw [show p ++ ([s] ++ rest.flatten) = p ++ s :: rest.flatten from by
        simp]
      rw [replace3_append_sep r (sep_ne_pattern ha hsw)
        (sep_ne_pattern hb hsw) (sep_ne_pattern hc hsw) p rest.flatten]
      rw [replace3_flatten ha hb hc rest hrest2]
      subst hq
      simp [replace3_one]
    · subst hd
      rw [show (['-'] :: q :: rest).flatten =
        ['-'] ++ (q :: rest).flatten from by simp]
      rw [hsepword '-' (by decide)]
      rw [replace3_flatten ha hb hc (q :: rest) htail]
      simp [replace3_one]
    · subst hs
      rw [show (['/'] :: q :: rest).flatten =
        ['/'] ++ (q :: rest).flatten from by simp]
      rw [hsepword '/' (by decide)]
      rw [replace3_flatten ha hb hc (q :: rest) htail]
      simp [replace3_one]
    · subst hsp
      rw [show (([' '] : Str) :: q :: rest).flatten =
        [' '] ++ (q :: rest).flatten from by simp]
      rw [hsepword ' ' (by decide)]
      rw [replace3_flatten ha hb hc (q :: rest) htail]
      simp [replace3_one]

theorem amp_toUpper (c : Char) : (Char.toUpper c = '&') ↔ (c = '&') := by
  simp only [char_eq_iff_toNat, toNat_toUpper,
    show ('&').toNat = 38 from rfl]
  split_ifs <;> omega

theorem dot_toUpper (c : Char) : (Char.toUpper c = '.') ↔ (c = '.') := by
  simp only [char_eq_iff_toNat, toNat_toUpper,
    show ('.').toNat = 46 from rfl]
  split_ifs <;> omega

theorem amp_toLower (c : Char) : (Char.toLower c = '&') ↔ (c = '&') := by
  simp only [char_eq_iff_toNat, toNat_toLower,
    show ('&').toNat = 38 from rfl]
  split_ifs <;> omega

theorem dot_toLower (c : Char) : (Char.toLower c = '.') ↔ (c = '.') := by
  simp only [char_eq_iff_toNat, toNat_toLower,
    show ('.').toNat = 46 from rfl]
  split_ifs <;> omega

theorem classEq_toUpper (c : Char) : classEq (Char.toUpper c) c :=
  ⟨isAsciiLetter_toUpper c, isPyDigit_toUpper c, amp_toUpper c,
    dot_toUpper c⟩

theorem classEq_toLower (c : Char) : classEq (Char.toLower c) c :=
  ⟨isAsciiLetter_toLower c, isPyDigit_toLower c, amp_toLower c,
    dot_toLower c⟩

theorem forall2_map_self {R : Char → Char → Prop} {f : Char → Char}
    (hf : ∀ x, R (f x) x) : ∀ l : Str, List.Forall₂ R (l.map f) l
  | [] => List.Forall₂.nil
  | c :: l => List.Forall₂.cons (hf c) (forall2_map_self hf l)

theorem takeWhile_len_congr :
    ∀ {l m : Str}, List.Forall₂ classEq l m →
      (l.takeWhile isAsciiLetter).length = (m.takeWhile isAsciiLetter).length
  | _, _, List.Forall₂.nil => rfl
  | _, _, List.Forall₂.cons (a := x) (b := y) hxy h => by
    rw [List.takeWhile_cons, List.takeWhile_cons, hxy.1]
    cases hy : isAsciiLetter y
    · simp [hy]
    · simp [hy, takeWhile_len_congr h]

theorem all_isPyDigit_congr :
    ∀ {l m : Str}, List.Forall₂ classEq l m →
      l.all isPyDigit = m.all isPyDigit
  | _, _, List.Forall₂.nil => rfl
  | _, _, List.Forall₂.cons (a := x) (b := y) hxy h => by
    simp only [List.all_cons, hxy.2.1, all_isPyDigit_congr h]

theorem forall2_drop {R : Char → Char → Prop} :
    ∀ (k : Nat) {l m : Str}, List.Forall₂ R l m →
      List.Forall₂ R (l.drop k) (m.drop k)
  | 0, _, _, h => h
  | _ + 1, _, _, List.Forall₂.nil => List.Forall₂.nil
  | k + 1, _, _, List.Forall₂.cons _ h => forall2_drop k h

theorem matchLetDig_congr {l m : Str} (h : List.Forall₂ classEq l m) :
    matchLetDig l = matchLetDig m := by
  have hlen : l.length = m.length := h.length_eq
  have htw := takeWhile_len_congr h
  have hdrop := forall2_drop (l.takeWhile isAsciiLetter).length h
  have hall := all_isPyDigit_congr hdrop
  simp only [matchLetDig, List.length_drop]
  rw [htw] at hall ⊢
  rw [hlen, hall]

theorem any_congr_amp :
    ∀ {l m : Str}, List.Forall₂ classEq l m →
      (l.any fun c => c = '&' || c = '.') =
        (m.any fun c => c = '&' || c = '.')
  | _, _, List.Forall₂.nil => rfl
  | _, _, List.Forall₂.cons (a := x) (b := y) hxy h => by
    simp only [List.any_cons, any_congr_amp h]
    have h1 : (decide (x = '&')) = (decide (y = '&')) := by
      simp [hxy.2.2.1]
    have h2 : (decide (x = '.')) = (decide (y = '.')) := by
      simp [hxy.2.2.2]
    rw [h1, h2]

theorem any_congr_letter :
    ∀ {l m : Str}, List.Forall₂ classEq l m →
      l.any isAsciiLetter = m.any isAsciiLetter
  | _, _, List.Forall₂.nil => rfl
  | _, _, List.Forall₂.cons (a := x) (b := y) hxy h => by
    simp only [List.any_cons, any_congr_letter h, hxy.1]

theorem hasAmpDot_congr {l m : Str} (h : List.Forall₂ classEq l m) :
    hasAmpDot l = hasAmpDot m := by
  unfold hasAmpDot
  rw [any_congr_amp h, any_congr_letter h]

theorem upperStr_upperStr (l : Str) : upperStr (upperStr l) = upperStr l := by
  simp only [upperStr, List.map_map]
  exact List.map_congr_left (fun c _ => toUpper_toUpper c)

theorem upperStr_lowerStr (l : Str) : upperStr (lowerStr l) = upperStr l := by
  simp only [upperStr, lowerStr, List.map_map]
  exact List.map_congr_left (fun c _ => toUpper_toLower c)

theorem lowerStr_lowerStr (l : Str) : lowerStr (lowerStr l) = lowerStr l := by
  simp only [lowerStr, List.map_map]
  exact List.map_congr_left (fun c _ => toLower_toLower c)

theorem appAcronyms_eq : appAcronyms = baseAcronyms := rfl

theorem co2_prefix_base {w : Str} (h : (strL "CO2" ++ w) ∈ baseAcronyms) :
    w = [] := by
  simp only [baseAcronyms, strL, List.mem_cons, List.mem_singleton] at h
  rcases h with h | h | h | h | h | h | h | h | h | h | h | h | h | h | h |
    h | h | h | h | h | h | h | h | h | h | h | h | h | h | h <;>
    simp_all

theorem le_char_toNat {c d : Char} : (c ≤ d) ↔ c.toNat ≤ d.toNat := by
  rw [Char.le_def, UInt32.le_def, BitVec.le_def]
  exact Iff.rfl

theorem upperStr_id_of_allCaps {l : Str} (h : allCapsAZ l = true) :
    upperStr l = l := by
  simp only [allCapsAZ, Bool.and_eq_true, List.all_eq_true] at h
  have hmap : l.map Char.toUpper = l.map id := by
    refine List.map_congr_left (fun c hc => ?_)
    have hco := h.2 c hc
    simp only [Bool.and_eq_true, decide_eq_true_eq, le_char_toNat] at hco
    have h1 : (65 : Nat) ≤ c.toNat := hco.1
    have h2 : c.toNat ≤ 90 := hco.2
    show Char.toUpper c = c
    apply toUpper_eq_self_of_not_lower
    rw [isLower_toNat]
    simp only [Bool.and_eq_false_iff, decide_eq_false_iff_not]
    omega
  simpa [upperStr] using hmap

theorem occurs3_false_of_first {a b c : Char} {l : Str} (h : a ∉ l) :
    occursIn [a, b, c] l = false := by
  cases hocc : occursIn [a, b, c] l
  · rfl
  · exact absurd (occursIn3_first hocc) h

theorem occurs3_false_of_second {a b c : Char} {l : Str} (h : b ∉ l) :
    occursIn [a, b, c] l = false := by
  cases hocc : occursIn [a, b, c] l
  · rfl
  · exact absurd (occursIn3_second hocc) h

theorem no_o_upperStr (l : Str) : 'o' ∉ upperStr l := by
  intro h
  rcases List.mem_map.mp h with ⟨c, _, hc⟩
  exact toUpper_ne_o c hc

theorem no_C_lowerStr (l : Str) : 'C' ∉ lowerStr l := by
  intro h
  rcases List.mem_map.mp h with ⟨c, _, hc⟩
  exact toLower_ne_C c hc

theorem isWordPart_upperStr {t : Str} (h : isWordPart t = true) :
    isWordPart (upperStr t) = true := by
  simp only [isWordPart, Bool.and_eq_true] at h ⊢
  refine ⟨by simpa [upperStr] using h.1, ?_⟩
  refine List.all_eq_true.mpr fun c hc => ?_
  rcases List.mem_map.mp hc with ⟨d, hd, hdc⟩
  subst hdc
  rw [wordChar_toUpper]
  exact List.all_eq_true.mp h.2 d hd

theorem isWordPart_title {c : Char} {cs : Str}
    (h : isWordPart (c :: cs) = true) :
    isWordPart (Char.toUpper c :: lowerStr cs) = true := by
  simp only [isWordPart, Bool.and_eq_true, List.all_cons] at h ⊢
  refine ⟨by simp, ?_⟩
  have h2 := h.2
  simp only [Bool.and_eq_true] at h2
  refine ⟨by rw [wordChar_toUpper]; exact h2.1, ?_⟩
  refine List.all_eq_true.mpr fun d hd => ?_
  rcases List.mem_map.mp hd with ⟨e, he, hec⟩
  subst hec
  rw [wordChar_toLower]
  exact List.all_eq_true.mp h2.2 e he

theorem azRange_toLower_false (d : Char) :
    (decide ('A' ≤ Char.toLower d) && decide (Char.toLower d ≤ 'Z')) =
      false := by
  simp only [Bool.and_eq_false_iff, decide_eq_false_iff_not, le_char_toNat,
    toNat_toLower, show ('A').toNat = 65 from rfl,
    show ('Z').toNat = 90 from rfl]
  split_ifs <;> omega

theorem any_isUpper_lowerStr (l : Str) :
    (lowerStr l).any Char.isUpper = false := by
  simp only [lowerStr, List.any_map, List.any_eq_false]
  intro c _
  simp [Function.comp, isUpper_toLower_false]

theorem upperStr_title (c : Char) (cs : Str) :
    upperStr (Char.toUpper c :: lowerStr cs) = upperStr (c :: cs) := by
  simp only [upperStr, lowerStr, List.map_cons, List.map_map,
    toUpper_toUpper]
  congr 1
  exact List.map_congr_left (fun d _ => toUpper_toLower d)

theorem classEq_title (c : Char) (cs : Str) :
    List.Forall₂ classEq (Char.toUpper c :: lowerStr cs) (c :: cs) :=
  List.Forall₂.cons (classEq_toUpper c) (forall2_map_self classEq_toLower cs)

theorem allCaps_title_false (x d : Char) (rest : Str) :
    allCapsAZ (x :: Char.toLower d :: rest) = false := by
  simp only [allCapsAZ, List.all_cons, azRange_toLower_false]
  simp

theorem letter_of_toUpper_C {c : Char} (h : Char.toUpper c = 'C') :
    isAsciiLetter c = true := by
  rw [char_eq_iff_toNat, toNat_toUpper, show ('C').toNat = 67 from rfl]
    at h
  rw [isAsciiLetter_toNat]
  simp only [Bool.or_eq_true, Bool.and_eq_true, decide_eq_true_eq]
  split_ifs at h <;> omega

theorem letter_of_toLower_o {c : Char} (h : Char.toLower c = 'o') :
    isAsciiLetter c = true := by
  rw [char_eq_iff_toNat, toNat_toLower, show ('o').toNat = 111 from rfl]
    at h
  rw [isAsciiLetter_toNat]
  simp only [Bool.or_eq_true, Bool.and_eq_true, decide_eq_true_eq]
  split_ifs at h <;> omega

theorem toUpper_of_toLower_o {c : Char} (h : Char.toLower c = 'o') :
    Char.toUpper c = 'O' := by
  have := toUpper_toLower c
  rw [h] at this
  rw [← this]
  rfl

theorem fix_toLower_two {c : Char} (h : Char.toLower c = '2') : c = '2' := by
  rw [char_eq_iff_toNat, toNat_toLower, show ('2').toNat = 50 from rfl] at h
  rw [char_eq_iff_toNat, show ('2').toNat = 50 from rfl]
  split_ifs at h <;> omega

theorem fix_toLower_sub2 {c : Char} (h : Char.toLower c = '₂') : c = '₂' := by
  rw [char_eq_iff_toNat, toNat_toLower, show ('₂').toNat = 8322 from rfl]
    at h
  rw [char_eq_iff_toNat, show ('₂').toNat = 8322 from rfl]
  split_ifs at h <;> omega

theorem contains_mem {l : List Str} {a : Str} (h : l.contains a = true) :
    a ∈ l := by
  simpa using h

theorem looksLike_word_eq {t : Str} (A : List Str)
    (hw : isWordPart t = true) :
    looksLikeAcronym t A =
      (A.contains (upperStr t) || matchLetDig t || allCapsAZ t ||
        hasAmpDot t) := by
  have hne : t ≠ [] := by
    simp only [isWordPart, Bool.and_eq_true] at hw
    simpa using hw.1
  have hstrip : stripStr t = t := stripStr_id_of_wsfree (isWordPart_wsfree hw)
  unfold looksLikeAcronym
  rw [if_neg hne, hstrip]

theorem smart_word_acr {t : Str} (A : List Str) (hw : isWordPart t = true)
    (hacr : looksLikeAcronym t A = true) :
    smartTitleToken t A =
      (if upperStr t = strL "CO₂" then strL "CO2" else upperStr t) := by
  have hne : t ≠ [] := by
    simp only [isWordPart, Bool.and_eq_true] at hw
    simpa using hw.1
  have hstrip : stripStr t = t := stripStr_id_of_wsfree (isWordPart_wsfree hw)
  have hsep := isWordPart_not_sep hw
  simp only [Bool.or_eq_false_iff] at hsep
  unfold smartTitleToken
  rw [hstrip, if_neg hne]
  rw [if_neg (by
    simp only [Bool.or_eq_true, decide_eq_true_eq]
    rintro ((hh | hh) | hh)
    · rw [hsep.1.1] at hh
      cases hh
    · exact absurd hh (by simpa using hsep.1.2)
    · exact absurd hh (by simpa using hsep.2))]
  rw [if_pos hacr]

theorem smart_word_mixed {t : Str} (A : List Str) (hw : isWordPart t = true)
    (hacr : looksLikeAcronym t A = false)
    (hmix : ((t.drop 1).any Char.isUpper && t.any Char.isLower) = true) :
    smartTitleToken t A = t := by
  have hne : t ≠ [] := by
    simp only [isWordPart, Bool.and_eq_true] at hw
    simpa using hw.1
  have hstrip : stripStr t = t := stripStr_id_of_wsfree (isWordPart_wsfree hw)
  have hsep := isWordPart_not_sep hw
  simp only [Bool.or_eq_false_iff] at hsep
  unfold smartTitleToken
  rw [hstrip, if_neg hne]
  rw [if_neg (by
    simp only [Bool.or_eq_true, decide_eq_true_eq]
    rintro ((hh | hh) | hh)
    · rw [hsep.1.1] at hh
      cases hh
    · exact absurd hh (by simpa using hsep.1.2)
    · exact absurd hh (by simpa using hsep.2))]
  rw [if_neg (by rw [hacr]; simp)]
  rw [if_pos hmix]

theorem smart_word_title {c : Char} {cs : Str} (A : List Str)
    (hw : isWordPart (c :: cs) = true)
    (hacr : looksLikeAcronym (c :: cs) A = false)
    (hmix : (((c :: cs).drop 1).any Char.isUpper &&
      (c :: cs).any Char.isLower) = false) :
    smartTitleToken (c :: cs) A = Char.toUpper c :: lowerStr cs := by
  have hne : (c :: cs) ≠ ([] : Str) := by simp
  have hstrip : stripStr (c :: cs) = c :: cs :=
    stripStr_id_of_wsfree (isWordPart_wsfree hw)
  have hsep := isWordPart_not_sep hw
  simp only [Bool.or_eq_false_iff] at hsep
  unfold smartTitleToken
  rw [hstrip, if_neg hne]
  rw [if_neg (by
    simp only [Bool.or_eq_true, decide_eq_true_eq]
    rintro ((hh | hh) | hh)
    · rw [hsep.1.1] at hh
      cases hh
    · exact absurd hh (by simpa using hsep.1.2)
    · exact absurd hh (by simpa using hsep.2))]
  rw [if_neg (by rw [hacr]; simp)]
  rw [if_neg (by rw [hmix]; simp)]

theorem rep1_no_o {l : Str} (h : 'o' ∉ l) : rep1 l = l :=
  replace3_of_not_occurs _ _ _ _ l (occurs3_false_of_second h)

theorem rep2_no_o {l : Str} (h : 'o' ∉ l) : rep2 l = l :=
  replace3_of_not_occurs _ _ _ _ l (occurs3_false_of_second h)

theorem smart_upper_fix {t : Str} (A : List Str) (hw : isWordPart t = true)
    (hacr : looksLikeAcronym t A = true)
    (hco : upperStr t ≠ strL "CO₂") :
    smartTitleToken (upperStr t) A = upperStr t := by
  have hwu := isWordPart_upperStr hw
  have hF2 : List.Forall₂ classEq (upperStr t) t :=
    forall2_map_self classEq_toUpper t
  have hacr' : looksLikeAcronym (upperStr t) A = true := by
    rw [looksLike_word_eq A hw] at hacr
    rw [looksLike_word_eq A hwu]
    simp only [Bool.or_eq_true] at hacr ⊢
    rcases hacr with ((hc | hm) | hcap) | ha
    · exact Or.inl (Or.inl (Or.inl (by rwa [upperStr_upperStr])))
    · exact Or.inl (Or.inl (Or.inr (by rwa [matchLetDig_congr hF2])))
    · exact Or.inl (Or.inr (by rwa [upperStr_id_of_allCaps hcap]))
    · exact Or.inr (by rwa [hasAmpDot_congr hF2])
  rw [smart_word_acr A hwu hacr']
  rw [upperStr_upperStr]
  rw [if_neg hco]

theorem smart_title_fix {c : Char} {cs : Str} (A : List Str)
    (hw : isWordPart (c :: cs) = true)
    (hcont : A.contains (upperStr (c :: cs)) = false)
    (hmld : matchLetDig (c :: cs) = false)
    (hamp : hasAmpDot (c :: cs) = false) :
    smartTitleToken (Char.toUpper c :: lowerStr cs) A =
      Char.toUpper c :: lowerStr cs := by
  have hwu := isWordPart_title hw
  have hF2 := classEq_title c cs
  have hacr' : looksLikeAcronym (Char.toUpper c :: lowerStr cs) A =
      false := by
    rw [looksLike_word_eq A hwu]
    simp only [Bool.or_eq_false_iff]
    refine ⟨⟨⟨?_, ?_⟩, ?_⟩, ?_⟩
    · rwa [upperStr_title]
    · rwa [matchLetDig_congr hF2]
    · cases cs with
      | nil => simp [allCapsAZ, lowerStr]
      | cons d ds => exact allCaps_title_false _ d _
    · rwa [hasAmpDot_congr hF2]
  have hmix' : (((Char.toUpper c :: lowerStr cs).drop 1).any Char.isUpper &&
      (Char.toUpper c :: lowerStr cs).any Char.isLower) = false := by
    rw [show (Char.toUpper c :: lowerStr cs).drop 1 = lowerStr cs from rfl]
    rw [any_isUpper_lowerStr]
    rfl
  rw [smart_word_title A hwu hacr' hmix']
  rw [toUpper_toUpper, lowerStr_lowerStr]

theorem occ_cons_eq (p : Str) (c : Char) (rest : Str) :
    occursIn p (c :: rest) = (p.isPrefixOf (c :: rest) || occursIn p rest) :=
  rfl

theorem beq3_false {a b c x y z : Char} {r : Bool}
    (h : ¬(a = x ∧ b = y ∧ c = z)) :
    (a == x && (b == y && (c == z && r))) = false := by
  rcases Decidable.em (a = x) with h1 | h1
  · rcases Decidable.em (b = y) with h2 | h2
    · rcases Decidable.em (c = z) with h3 | h3
      · exact absurd ⟨h1, h2, h3⟩ h
      · simp [h3]
    · simp [h2]
  · simp [h1]

theorem beq_head_false {a x : Char} {r : Bool} (h : a ≠ x) :
    (a == x && r) = false := by
  have : (a == x) = false := by
    simp only [beq_eq_false_iff_ne, ne_eq]
    exact h
  rw [this, Bool.false_and]

theorem occ_xyzT {x y z w : Char} {T : Str}
    (h0 : ¬(x = 'C' ∧ y = 'o' ∧ z = w))
    (hy : y ≠ 'C') (hz : z ≠ 'C') (hT : 'C' ∉ T) :
    occursIn ['C', 'o', w] (x :: y :: z :: T) = false := by
  have hrest : occursIn ['C', 'o', w] T = false := occurs3_false_of_first hT
  rw [occ_cons_eq, occ_cons_eq, occ_cons_eq, hrest]
  have hp0 : (['C', 'o', w].isPrefixOf (x :: y :: z :: T)) = false := by
    rw [show (['C', 'o', w].isPrefixOf (x :: y :: z :: T)) =
      ('C' == x && ('o' == y && (w == z && List.isPrefixOf [] T))) from
        rfl]
    exact beq3_false (fun hh => h0 ⟨hh.1.symm, hh.2.1.symm, hh.2.2.symm⟩)
  have hp1 : (['C', 'o', w].isPrefixOf (y :: z :: T)) = false := by
    rw [show (['C', 'o', w].isPrefixOf (y :: z :: T)) =
      ('C' == y && List.isPrefixOf ['o', w] (z :: T)) from rfl]
    exact beq_head_false (fun hh => hy hh.symm)
  have hp2 : (['C', 'o', w].isPrefixOf (z :: T)) = false := by
    rw [show (['C', 'o', w].isPrefixOf (z :: T)) =
      ('C' == z && List.isPrefixOf ['o', w] T) from rfl]
    exact beq_head_false (fun hh => hz hh.symm)
  rw [hp0, hp1, hp2]
  rfl

theorem occ_COtwoT {w : Char} {T : Str} (hT : 'C' ∉ T) :
    occursIn ['C', 'o', w] ('C' :: 'O' :: '2' :: T) = false := by
  have hrest : occursIn ['C', 'o', w] T = false := occurs3_false_of_first hT
  rw [occ_cons_eq, occ_cons_eq, occ_cons_eq, hrest]
  have hp0 : (['C', 'o', w].isPrefixOf ('C' :: 'O' :: '2' :: T)) = false := by
    simp [List.isPrefixOf]
  have hp1 : (['C', 'o', w].isPrefixOf ('O' :: '2' :: T)) = false := by
    simp [List.isPrefixOf]
  have hp2 : (['C', 'o', w].isPrefixOf ('2' :: T)) = false := by
    simp [List.isPrefixOf]
  rw [hp0, hp1, hp2]
  rfl

theorem passTok_co2_head {cs₃ : Str}
    (hwT : (lowerStr cs₃).all wordChar = true)
    (hcont : appAcronyms.contains
      (upperStr ('C' :: 'O' :: '2' :: lowerStr cs₃)) = false)
    (hmld : matchLetDig ('C' :: 'O' :: '2' :: lowerStr cs₃) = false)
    (hamp : hasAmpDot ('C' :: 'O' :: '2' :: lowerStr cs₃) = false) :
    passTok ('C' :: 'O' :: '2' :: lowerStr cs₃) =
      'C' :: 'O' :: '2' :: lowerStr cs₃ := by
  have hCnotin : 'C' ∉ lowerStr cs₃ := no_C_lowerStr cs₃
  have hwu : isWordPart ('C' :: 'O' :: '2' :: lowerStr cs₃) = true := by
    simp only [isWordPart, List.all_cons, Bool.and_eq_true]
    exact ⟨by simp, by decide, by decide, by decide, hwT⟩
  have hcaps : allCapsAZ ('C' :: 'O' :: '2' :: lowerStr cs₃) = false := by
    simp only [allCapsAZ, List.all_cons]
    simp
  have hacr : looksLikeAcronym ('C' :: 'O' :: '2' :: lowerStr cs₃)
      appAcronyms = false := by
    rw [looksLike_word_eq appAcronyms hwu]
    rw [hcont, hmld, hcaps, hamp]
    rfl
  have hrep1_u : rep1 ('C' :: 'O' :: '2' :: lowerStr cs₃) =
      'C' :: 'O' :: '2' :: lowerStr cs₃ :=
    replace3_of_not_occurs _ _ _ _ _ (occ_COtwoT hCnotin)
  have hrep2_u : rep2 ('C' :: 'O' :: '2' :: lowerStr cs₃) =
      'C' :: 'O' :: '2' :: lowerStr cs₃ :=
    replace3_of_not_occurs _ _ _ _ _ (occ_COtwoT hCnotin)
  cases hTl : (lowerStr cs₃).any Char.isLower with
  | true =>
    have hmix : ((('C' :: 'O' :: '2' :: lowerStr cs₃).drop 1).any
        Char.isUpper &&
        ('C' :: 'O' :: '2' :: lowerStr cs₃).any Char.isLower) = true := by
      have hup : (('C' :: 'O' :: '2' :: lowerStr cs₃).drop 1).any
          Char.isUpper = true := by
        rw [show ('C' :: 'O' :: '2' :: lowerStr cs₃).drop 1 =
          'O' :: '2' :: lowerStr cs₃ from rfl]
        simp only [List.any_cons, show Char.isUpper 'O' = true from by
          decide]
        rfl
      have hlow : ('C' :: 'O' :: '2' :: lowerStr cs₃).any Char.isLower =
          true := by
        simp only [List.any_cons, hTl, Bool.or_true]
      rw [hup, hlow]
      rfl
    rw [passTok, smart_word_mixed appAcronyms hwu hacr hmix, hrep1_u,
      hrep2_u]
  | false =>
    have hmix : ((('C' :: 'O' :: '2' :: lowerStr cs₃).drop 1).any
        Char.isUpper &&
        ('C' :: 'O' :: '2' :: lowerStr cs₃).any Char.isLower) = false := by
      have hlow : ('C' :: 'O' :: '2' :: lowerStr cs₃).any Char.isLower =
          false := by
        simp only [List.any_cons, hTl,
          show Char.isLower 'C' = false from by decide,
          show Char.isLower 'O' = false from by decide,
          show Char.isLower '2' = false from by decide]
        rfl
      rw [hlow, Bool.and_false]
    rw [passTok, smart_word_title appAcronyms hwu hacr hmix]
    rw [show Char.toUpper 'C' = 'C' from by decide]
    rw [show lowerStr ('O' :: '2' :: lowerStr cs₃) =
      'o' :: '2' :: lowerStr (lowerStr cs₃) from by
        simp [lowerStr]]
    rw [lowerStr_lowerStr]
    have hrep1_t : rep1 ('C' :: 'o' :: '2' :: lowerStr cs₃) =
        'C' :: 'O' :: '2' :: lowerStr cs₃ := by
      rw [rep1, replace3_cons3_pos (strL "CO2") (lowerStr cs₃)
        ⟨rfl, rfl, rfl⟩]
      rw [replace3_of_not_occurs _ _ _ _ _ (occurs3_false_of_first
        hCnotin)]
      rfl
    rw [hrep1_t, hrep2_u]

theorem isWordPart_all {t : Str} (h : isWordPart t = true) :
    ∀ d ∈ t, wordChar d = true := fun d hd => by
  simp only [isWordPart, Bool.and_eq_true] at h
  exact List.all_eq_true.mp h.2 d hd

theorem classEq_two_two : classEq '2' '2' := ⟨rfl, rfl, Iff.rfl, Iff.rfl⟩

theorem classEq_two_sub : classEq '2' '₂' := by
  refine ⟨by decide, by decide, ?_, ?_⟩ <;>
    exact ⟨fun h => absurd h (by decide), fun h => absurd h (by decide)⟩

theorem passTok_title_long {c c₁ c₂ : Char} {cs₃ : Str}
    (hw : isWordPart (c :: c₁ :: c₂ :: cs₃) = true)
    (hA1 : appAcronyms.contains (upperStr (c :: c₁ :: c₂ :: cs₃)) = false)
    (hA2 : matchLetDig (c :: c₁ :: c₂ :: cs₃) = false)
    (hA4 : hasAmpDot (c :: c₁ :: c₂ :: cs₃) = false)
    (hC2 : ¬(Char.toUpper c = 'C' ∧ Char.toLower c₁ = 'o' ∧
      (Char.toLower c₂ = '2' ∨ Char.toLower c₂ = '₂'))) :
    passTok (Char.toUpper c :: lowerStr (c₁ :: c₂ :: cs₃)) =
      Char.toUpper c :: lowerStr (c₁ :: c₂ :: cs₃) := by
  have hT : 'C' ∉ lowerStr cs₃ := no_C_lowerStr cs₃
  have h02 : ¬(Char.toUpper c = 'C' ∧ Char.toLower c₁ = 'o' ∧
      Char.toLower c₂ = '2') := fun hh => hC2 ⟨hh.1, hh.2.1, Or.inl hh.2.2⟩
  have h0s : ¬(Char.toUpper c = 'C' ∧ Char.toLower c₁ = 'o' ∧
      Char.toLower c₂ = '₂') := fun hh => hC2 ⟨hh.1, hh.2.1, Or.inr hh.2.2⟩
  have hocc1 : occursIn ['C', 'o', '2'] (Char.toUpper c ::
      Char.toLower c₁ :: Char.toLower c₂ :: lowerStr cs₃) = false :=
    occ_xyzT h02 (toLower_ne_C c₁) (toLower_ne_C c₂) hT
  have hocc2 : occursIn ['C', 'o', '₂'] (Char.toUpper c ::
      Char.toLower c₁ :: Char.toLower c₂ :: lowerStr cs₃) = false :=
    occ_xyzT h0s (toLower_ne_C c₁) (toLower_ne_C c₂) hT
  have hrep1 : rep1 (Char.toUpper c :: lowerStr (c₁ :: c₂ :: cs₃)) =
      Char.toUpper c :: lowerStr (c₁ :: c₂ :: cs₃) :=
    replace3_of_not_occurs _ _ _ _ _ hocc1
  have hrep2 : rep2 (Char.toUpper c :: lowerStr (c₁ :: c₂ :: cs₃)) =
      Char.toUpper c :: lowerStr (c₁ :: c₂ :: cs₃) :=
    replace3_of_not_occurs _ _ _ _ _ hocc2
  rw [passTok, smart_title_fix appAcronyms hw hA1 hA2 hA4, hrep1, hrep2]

theorem passTok_idem {t : Str} (hw : isWordPart t = true)
    (h1 : occursIn (strL "Co2") t = false)
    (h2 : occursIn (strL "Co₂") t = false) :
    passTok (passTok t) = passTok t := by
  cases hacr : looksLikeAcronym t appAcronyms with
  | true =>
    by_cases hco : upperStr t = strL "CO₂"
    · have hpt : passTok t = strL "CO2" := by
        rw [passTok, smart_word_acr appAcronyms hw hacr, if_pos hco]
        rfl
      rw [hpt]
      rfl
    · have hrep1 : rep1 (upperStr t) = upperStr t :=
        rep1_no_o (no_o_upperStr t)
      have hrep2 : rep2 (upperStr t) = upperStr t :=
        rep2_no_o (no_o_upperStr t)
      have hpt : passTok t = upperStr t := by
        rw [passTok, smart_word_acr appAcronyms hw hacr, if_neg hco, hrep1,
          hrep2]
      rw [hpt, passTok, smart_upper_fix appAcronyms hw hacr hco, hrep1,
        hrep2]
  | false =>
    cases hmix : ((t.drop 1).any Char.isUpper && t.any Char.isLower) with
    | true =>
      have hrep1 : rep1 t = t := replace3_of_not_occurs _ _ _ _ _ h1
      have hrep2 : rep2 t = t := replace3_of_not_occurs _ _ _ _ _ h2
      have hpt : passTok t = t := by
        rw [passTok, smart_word_mixed appAcronyms hw hacr hmix, hrep1,
          hrep2]
      rw [hpt]
      exact hpt
    | false =>
      obtain ⟨c, cs, rfl⟩ : ∃ c cs, t = c :: cs := by
        cases t with
        | nil => exact absurd hw (by decide)
        | cons c cs => exact ⟨c, cs, rfl⟩
      have hA := hacr
      rw [looksLike_word_eq appAcronyms hw] at hA
      simp only [Bool.or_eq_false_iff] at hA
      obtain ⟨⟨⟨hA1, hA2⟩, hA3⟩, hA4⟩ := hA
      have hsmart := smart_word_title appAcronyms hw hacr hmix
      cases cs with
      | nil =>
        have hpt : passTok [c] = [Char.toUpper c] := by
          rw [passTok, hsmart]
          rw [show lowerStr ([] : Str) = ([] : Str) from rfl, rep1,
            replace3_one, rep2, replace3_one]
        rw [hpt, passTok]
        rw [show ([Char.toUpper c] : Str) =
          Char.toUpper c :: lowerStr ([] : Str) from rfl]
        rw [smart_title_fix appAcronyms hw hA1 hA2 hA4]
        rw [show (Char.toUpper c :: lowerStr ([] : Str) : Str) =
          [Char.toUpper c] from rfl]
        rw [rep1, replace3_one, rep2, replace3_one]
      | cons c₁ cs₂ =>
        cases cs₂ with
        | nil =>
          have hpt : passTok [c, c₁] =
              [Char.toUpper c, Char.toLower c₁] := by
            rw [passTok, hsmart]
            rw [show lowerStr ([c₁] : Str) = [Char.toLower c₁] from rfl,
              rep1, replace3_two, rep2, replace3_two]
          rw [hpt, passTok]
          rw [show ([Char.toUpper c, Char.toLower c₁] : Str) =
            Char.toUpper c :: lowerStr ([c₁] : Str) from rfl]
          rw [smart_title_fix appAcronyms hw hA1 hA2 hA4]
          rw [show (Char.toUpper c :: lowerStr ([c₁] : Str) : Str) =
            [Char.toUpper c, Char.toLower c₁] from rfl]
          rw [rep1, replace3_two, rep2, replace3_two]
        | cons c₂ cs₃ =>
          have hT : 'C' ∉ lowerStr cs₃ := no_C_lowerStr cs₃
          by_cases hC2 : Char.toUpper c = 'C' ∧ Char.toLower c₁ = 'o' ∧
              (Char.toLower c₂ = '2' ∨ Char.toLower c₂ = '₂')
          · obtain ⟨hxC, hyo, hz⟩ := hC2
            have hwT : (lowerStr cs₃).all wordChar = true := by
              refine List.all_eq_true.mpr fun d hd => ?_
              rcases List.mem_map.mp hd with ⟨e, he, rfl⟩
              rw [wordChar_toLower]
              exact isWordPart_all hw e (by simp [he])
            have hOc₁ : Char.toUpper c₁ = 'O' := toUpper_of_toLower_o hyo
            have hF2 : List.Forall₂ classEq
                ('C' :: 'O' :: '2' :: lowerStr cs₃)
                (c :: c₁ :: c₂ :: cs₃) := by
              refine List.Forall₂.cons (hxC ▸ classEq_toUpper c) ?_
              refine List.Forall₂.cons (hOc₁ ▸ classEq_toUpper c₁) ?_
              refine List.Forall₂.cons ?_ (forall2_map_self classEq_toLower
                cs₃)
              rcases hz with hz2 | hzs
              · rw [fix_toLower_two hz2]
                exact classEq_two_two
              · rw [fix_toLower_sub2 hzs]
                exact classEq_two_sub
            have hmld : matchLetDig ('C' :: 'O' :: '2' :: lowerStr cs₃) =
                false := by
              rw [matchLetDig_congr hF2]
              exact hA2
            have hamp : hasAmpDot ('C' :: 'O' :: '2' :: lowerStr cs₃) =
                false := by
              rw [hasAmpDot_congr hF2]
              exact hA4
            have hupu : upperStr ('C' :: 'O' :: '2' :: lowerStr cs₃) =
                'C' :: 'O' :: '2' :: upperStr cs₃ := by
              rw [show upperStr ('C' :: 'O' :: '2' :: lowerStr cs₃) =
                'C' :: 'O' :: '2' :: upperStr (lowerStr cs₃) from rfl,
                upperStr_lowerStr]
            have hcont : appAcronyms.contains
                (upperStr ('C' :: 'O' :: '2' :: lowerStr cs₃)) = false := by
              rcases hz with hz2 | hzs
              · have hupt : upperStr (c :: c₁ :: c₂ :: cs₃) =
                    'C' :: 'O' :: '2' :: upperStr cs₃ := by
                  rw [show upperStr (c :: c₁ :: c₂ :: cs₃) =
                    Char.toUpper c :: Char.toUpper c₁ :: Char.toUpper c₂ ::
                      upperStr cs₃ from rfl, hxC, hOc₁,
                    fix_toLower_two hz2]
                  rfl
                rw [hupu, ← hupt]
                exact hA1
              · cases hcc : appAcronyms.contains
                    (upperStr ('C' :: 'O' :: '2' :: lowerStr cs₃)) with
                | false => rfl
                | true =>
                  exfalso
                  have hmem := contains_mem hcc
                  rw [hupu, appAcronyms_eq] at hmem
                  have hnil : upperStr cs₃ = [] :=
                    co2_prefix_base hmem
                  have hcs₃ : cs₃ = [] := by
                    simpa [upperStr] using hnil
                  subst hcs₃
                  rw [fix_toLower_sub2 hzs] at hA2
                  have hlc : isAsciiLetter c = true :=
                    letter_of_toUpper_C hxC
                  have hlc₁ : isAsciiLetter c₁ = true :=
                    letter_of_toLower_o hyo
                  have hmt : matchLetDig [c, c₁, '₂'] = true := by
                    simp only [matchLetDig, List.takeWhile_cons, hlc, hlc₁,
                      show isAsciiLetter '₂' = false from by decide]
                    simp [show isPyDigit '₂' = true from by decide]
                  rw [hmt] at hA2
                  cases hA2
            have hpt : passTok (c :: c₁ :: c₂ :: cs₃) =
                'C' :: 'O' :: '2' :: lowerStr cs₃ := by
              rw [passTok, hsmart]
              rw [show lowerStr (c₁ :: c₂ :: cs₃) = Char.toLower c₁ ::
                Char.toLower c₂ :: lowerStr cs₃ from rfl]
              rw [hxC, hyo]
              rcases hz with hz2 | hzs
              · rw [hz2]
                rw [rep1, replace3_cons3_pos (strL "CO2") (lowerStr cs₃)
                  ⟨rfl, rfl, rfl⟩, replace3_of_not_occurs _ _ _ _ _
                  (occurs3_false_of_first hT)]
                rw [show strL "CO2" ++ lowerStr cs₃ =
                  'C' :: 'O' :: '2' :: lowerStr cs₃ from rfl]
                exact replace3_of_not_occurs _ _ _ _ _ (occ_COtwoT hT)
              · rw [hzs]
                have hocc1 : occursIn ['C', 'o', '2']
                    ('C' :: 'o' :: '₂' :: lowerStr cs₃) = false :=
                  occ_xyzT (by simp) (by decide) (by decide) hT
                rw [rep1, replace3_of_not_occurs _ _ _ _ _ hocc1]
                rw [rep2, replace3_cons3_pos (strL "CO2") (lowerStr cs₃)
                  ⟨rfl, rfl, rfl⟩, replace3_of_not_occurs _ _ _ _ _
                  (occurs3_false_of_first hT)]
                rfl
            rw [hpt]
            exact passTok_co2_head hwT hcont hmld hamp
          · have hpt : passTok (c :: c₁ :: c₂ :: cs₃) =
                Char.toUpper c :: lowerStr (c₁ :: c₂ :: cs₃) := by
              have h02 : ¬(Char.toUpper c = 'C' ∧ Char.toLower c₁ = 'o' ∧
                  Char.toLower c₂ = '2') := fun hh =>
                hC2 ⟨hh.1, hh.2.1, Or.inl hh.2.2⟩
              have h0s : ¬(Char.toUpper c = 'C' ∧ Char.toLower c₁ = 'o' ∧
                  Char.toLower c₂ = '₂') := fun hh =>
                hC2 ⟨hh.1, hh.2.1, Or.inr hh.2.2⟩
              rw [passTok, hsmart]
              rw [show rep1 (Char.toUpper c :: lowerStr (c₁ :: c₂ :: cs₃))
                = Char.toUpper c :: lowerStr (c₁ :: c₂ :: cs₃) from
                replace3_of_not_occurs _ _ _ _ _ (occ_xyzT h02
                  (toLower_ne_C c₁) (toLower_ne_C c₂) hT)]
              exact replace3_of_not_occurs _ _ _ _ _ (occ_xyzT h0s
                (toLower_ne_C c₁) (toLower_ne_C c₂) hT)
            rw [hpt]
            exact passTok_title_long hw hA1 hA2 hA4 hC2

theorem partsGood_mem :
    ∀ {ps : List Str}, partsGood ps = true → ∀ p ∈ ps,
      (isWordPart p || decide (p = ['-']) || decide (p = ['/']) ||
        decide (p = [' '])) = true
  | [], _, p, hp => absurd hp (by simp)
  | q :: qs, h, p, hp => by
    rcases List.mem_cons.mp hp with hh | hh
    · subst hh
      exact partsGood_partOk h
    · exact partsGood_mem (partsGood_tail h) p hh

theorem passTok_word {p : Str} (h : isWordPart p = true) :
    isWordPart (passTok p) = true := by
  have h1 := smartTitle_word appAcronyms h
  have hr : (strL "CO2").all wordChar = true := by decide
  have hrne : strL "CO2" ≠ [] := by decide
  exact replace3_isWordPart hr hrne (replace3_isWordPart hr hrne h1)

theorem passTok_dash : passTok ['-'] = ['-'] := rfl

theorem passTok_slash : passTok ['/'] = ['/'] := rfl

theorem passTok_space : passTok [' '] = [' '] := rfl

theorem map_space_inv {f : Str → Str}
    (hword : ∀ p, isWordPart p = true → isWordPart (f p) = true)
    (hdash : f ['-'] = ['-']) (hslash : f ['/'] = ['/'])
    ( _hspace : f [' '] = [' '])
    {ps : List Str} (hgood : partsGood ps = true) :
    ∀ p ∈ ps, f p = [' '] → p = [' '] := by
  intro p hp hfp
  have hcls := partsGood_mem hgood p hp
  simp only [Bool.or_eq_true, decide_eq_true_eq] at hcls
  rcases hcls with ((hw | hd) | hs) | hsp
  · exfalso
    have := hword p hw
    rw [hfp] at this
    exact absurd this (by decide)
  · rw [hd] at hfp
    rw [hdash] at hfp
    cases hfp
  · rw [hs] at hfp
    rw [hslash] at hfp
    cases hfp
  · exact hsp

theorem getLast_map_ne_space {f : Str → Str}
    (hword : ∀ p, isWordPart p = true → isWordPart (f p) = true)
    (hdash : f ['-'] = ['-']) (hslash : f ['/'] = ['/'])
    (hspace : f [' '] = [' '])
    {ps : List Str} (hgood : partsGood ps = true)
    (hlast : ps.getLast? ≠ some [' ']) :
    (ps.map f).getLast? ≠ some [' '] := by
  rw [List.getLast?_map]
  intro hh
  rcases hgl : ps.getLast? with _ | p
  · rw [hgl] at hh
    cases hh
  · rw [hgl] at hh
    simp only [Option.map_some', Option.some.injEq] at hh
    have hmem : p ∈ ps := List.mem_of_mem_getLast? (by simp [hgl])
    have := map_space_inv hword hdash hslash hspace hgood p hmem hh
    rw [this] at hgl
    exact hlast hgl

theorem head_map_ne_space {f : Str → Str}
    (hword : ∀ p, isWordPart p = true → isWordPart (f p) = true)
    (hdash : f ['-'] = ['-']) (hslash : f ['/'] = ['/'])
    (hspace : f [' '] = [' '])
    {ps : List Str} (hgood : partsGood ps = true)
    (hhead : ps.head? ≠ some [' ']) :
    (ps.map f).head? ≠ some [' '] := by
  rw [List.head?_map]
  intro hh
  rcases hgl : ps.head? with _ | p
  · rw [hgl] at hh
    cases hh
  · rw [hgl] at hh
    simp only [Option.map_some', Option.some.injEq] at hh
    have hmem : p ∈ ps := List.mem_of_mem_head? (by simp [hgl])
    have := map_space_inv hword hdash hslash hspace hgood p hmem hh
    rw [this] at hgl
    exact hhead hgl

theorem flatten_ne_nil {ps : List Str} (hne : ps ≠ [])
    (hgood : partsGood ps = true) : ps.flatten ≠ [] := by
  rcases ps with _ | ⟨p, qs⟩
  · exact absurd rfl hne
  · have hp := partOk_ne_nil hgood
    simp only [List.flatten_cons]
    intro hh
    exact hp (List.append_eq_nil.mp hh).1

theorem normalizePhrase_parts {ps : List Str} (hgood : partsGood ps = true)
    (hne : ps ≠ []) (hhead : ps.head? ≠ some [' '])
    (hlast : ps.getLast? ≠ some [' ']) :
    normalizePhrase ps.flatten appAcronyms = (ps.map passTok).flatten := by
  obtain ⟨p0, ps0, rfl⟩ : ∃ p0 ps0, ps = p0 :: ps0 := by
    cases ps with
    | nil => exact absurd rfl hne
    | cons a b => exact ⟨a, b, rfl⟩
  have hp0 : ¬(p0 = [' ']) := fun hh => hhead (by rw [hh]; rfl)
  have hH : headWhite (p0 :: ps0).flatten = false :=
    flatten_headWhite hgood hp0
  have hL : headWhite (p0 :: ps0).flatten.reverse = false :=
    flatten_lastWhite _ hgood hlast
  have hS : singleSpaced (p0 :: ps0).flatten = true :=
    flatten_singleSpaced _ hgood hlast
  have hNT : normalizeText (p0 :: ps0).flatten = (p0 :: ps0).flatten :=
    normalizeText_id hS hH hL
  have hFne : (p0 :: ps0).flatten ≠ [] := flatten_ne_nil (by simp) hgood
  simp only [normalizePhrase]
  rw [hNT, if_neg hFne]
  rw [splitKeep_roundTrip _ hgood]
  have hsw : ∀ p, isWordPart p = true →
      isWordPart (smartTitleToken p appAcronyms) = true :=
    fun p hp => smartTitle_word appAcronyms hp
  have hg1 : partsGood ((p0 :: ps0).map
      (fun p => smartTitleToken p appAcronyms)) = true :=
    partsGood_map hsw (smartTitle_dash _) (smartTitle_slash _)
      (smartTitle_space _) _ hgood
  have hl1 : (((p0 :: ps0).map
      (fun p => smartTitleToken p appAcronyms)).getLast?) ≠ some [' '] :=
    getLast_map_ne_space hsw (smartTitle_dash _) (smartTitle_slash _)
      (smartTitle_space _) hgood hlast
  have hh1 : (((p0 :: ps0).map
      (fun p => smartTitleToken p appAcronyms)).head?) ≠ some [' '] :=
    head_map_ne_space hsw (smartTitle_dash _) (smartTitle_slash _)
      (smartTitle_space _) hgood hhead
  have hsp0 : ¬(smartTitleToken p0 appAcronyms = [' ']) := fun hh =>
    hh1 (by
      rw [show (((p0 :: ps0).map
        (fun p => smartTitleToken p appAcronyms)).head?) =
        some (smartTitleToken p0 appAcronyms) from rfl, hh])
  have hMSH : headWhite ((p0 :: ps0).map
      (fun p => smartTitleToken p appAcronyms)).flatten = false :=
    flatten_headWhite hg1 hsp0
  have hMSL : headWhite ((p0 :: ps0).map
      (fun p => smartTitleToken p appAcronyms)).flatten.reverse = false :=
    flatten_lastWhite _ hg1 hl1
  have hMSS : singleSpaced ((p0 :: ps0).map
      (fun p => smartTitleToken p appAcronyms)).flatten = true :=
    flatten_singleSpaced _ hg1 hl1
  rw [collapseWs_id hMSS, stripStr_id hMSH hMSL]
  rw [replace3_flatten (by decide) (by decide) (by decide) _ hg1]
  have hg2 : partsGood (((p0 :: ps0).map
      (fun p => smartTitleToken p appAcronyms)).map
      (replace3 'C' 'o' '2' (strL "CO2"))) = true :=
    partsGood_map
      (fun p hp => replace3_isWordPart (by decide) (by decide) hp)
      (replace3_one _ _ _ _ _) (replace3_one _ _ _ _ _)
      (replace3_one _ _ _ _ _) _ hg1
  rw [replace3_flatten (by decide) (by decide) (by decide) _ hg2]
  simp only [List.map_map]
  exact congrArg List.flatten (List.map_congr_left fun p _ => rfl)

theorem normalizePhrase_normalizeText (s : Str) (A : List Str) :
    normalizePhrase s A = normalizePhrase (normalizeText s) A := by
  rcases normalizeText_canon s with ⟨hS, hH, hL⟩
  have hNT2 : normalizeText (normalizeText s) = normalizeText s :=
    normalizeText_id hS hH hL
  simp only [normalizePhrase]
  rw [hNT2]

theorem normalizePhrase_idem_aux (s : Str)
    (h1 : occursIn (strL "Co2") s = false)
    (h2 : occursIn (strL "Co₂") s = false) :
    normalizePhrase (normalizePhrase s appAcronyms) appAcronyms =
      normalizePhrase s appAcronyms := by
  by_cases hs1 : normalizeText s = []
  · have hz : normalizePhrase s appAcronyms = [] := by
      simp only [normalizePhrase]
      rw [if_pos hs1]
    rw [hz]
    rfl
  · rcases normalizeText_canon s with ⟨hS, hH, hL⟩
    have hgood : partsGood (splitKeep (normalizeText s)) = true :=
      splitKeep_partsGood _ hS
    have hlast : (splitKeep (normalizeText s)).getLast? ≠ some [' '] :=
      splitKeep_last_not_space hL
    obtain ⟨c0, l0, hs1eq⟩ : ∃ c l, normalizeText s = c :: l := by
      cases hnt : normalizeText s with
      | nil => exact absurd hnt hs1
      | cons c l => exact ⟨c, l, rfl⟩
    have hc0 : pyWhite c0 = false := by
      have hf := hH
      rw [hs1eq] at hf
      simpa [headWhite] using hf
    obtain ⟨pp, pps, hsplit⟩ := splitKeep_cons_head c0 l0
    have hne : splitKeep (normalizeText s) ≠ [] := by
      rw [hs1eq, hsplit]
      simp
    have hhead : (splitKeep (normalizeText s)).head? ≠ some [' '] := by
      rw [hs1eq, hsplit]
      intro hh
      simp only [List.head?_cons, Option.some.injEq] at hh
      have hcsp : c0 = ' ' := (List.cons_eq_cons.mp hh).1
      rw [hcsp] at hc0
      cases hc0
    have hflat : (splitKeep (normalizeText s)).flatten = normalizeText s :=
      flatten_splitKeep _
    have hfirst : normalizePhrase s appAcronyms =
        ((splitKeep (normalizeText s)).map passTok).flatten := by
      rw [normalizePhrase_normalizeText s appAcronyms]
      conv_lhs => rw [← hflat]
      exact normalizePhrase_parts hgood hne hhead hlast
    have hg' : partsGood ((splitKeep (normalizeText s)).map passTok) =
        true :=
      partsGood_map (fun p hp => passTok_word hp) passTok_dash
        passTok_slash passTok_space _ hgood
    have hl' : (((splitKeep (normalizeText s)).map passTok).getLast?) ≠
        some [' '] :=
      getLast_map_ne_space (fun p hp => passTok_word hp) passTok_dash
        passTok_slash passTok_space hgood hlast
    have hh' : (((splitKeep (normalizeText s)).map passTok).head?) ≠
        some [' '] :=
      head_map_ne_space (fun p hp => passTok_word hp) passTok_dash
        passTok_slash passTok_space hgood hhead
    have hne' : (splitKeep (normalizeText s)).map passTok ≠ [] := by
      intro hh
      exact hne (List.map_eq_nil_iff.mp hh)
    have hsecond : normalizePhrase
        ((splitKeep (normalizeText s)).map passTok).flatten appAcronyms =
        (((splitKeep (normalizeText s)).map passTok).map passTok).flatten :=
      normalizePhrase_parts hg' hne' hh' hl'
    have htok : ((splitKeep (normalizeText s)).map passTok).map passTok =
        (splitKeep (normalizeText s)).map passTok := by
      have hpt : ∀ u ∈ (splitKeep (normalizeText s)).map passTok,
          passTok u = u := by
        intro u hu
        rcases List.mem_map.mp hu with ⟨p, hp, rfl⟩
        have hcls := partsGood_mem hgood p hp
        simp only [Bool.or_eq_true, decide_eq_true_eq] at hcls
        rcases hcls with ((hwp | hd) | hsl) | hsp
        · have ho1 : occursIn (strL "Co2") p = false := by
            cases hv : occursIn (strL "Co2") p with
            | false => rfl
            | true =>
              exfalso
              have hin : occursIn (strL "Co2")
                  ((splitKeep (normalizeText s)).flatten) = true :=
                occursIn_trans hv (occursIn_of_mem_flatten hp)
              rw [hflat] at hin
              have hins := occursIn_normalizeText (by decide) (by decide)
                (by decide) hin
              exact Bool.false_ne_true (h1.symm.trans hins)
          have ho2 : occursIn (strL "Co₂") p = false := by
            cases hv : occursIn (strL "Co₂") p with
            | false => rfl
            | true =>
              exfalso
              have hin : occursIn (strL "Co₂")
                  ((splitKeep (normalizeText s)).flatten) = true :=
                occursIn_trans hv (occursIn_of_mem_flatten hp)
              rw [hflat] at hin
              have hins := occursIn_normalizeText (by decide) (by decide)
                (by decide) hin
              exact Bool.false_ne_true (h2.symm.trans hins)
          exact passTok_idem hwp ho1 ho2
        · rw [hd]
          rfl
        · rw [hsl]
          rfl
        · rw [hsp]
          rfl
      calc ((splitKeep (normalizeText s)).map passTok).map passTok
          = ((splitKeep (normalizeText s)).map passTok).map id :=
            List.map_congr_left hpt
        _ = (splitKeep (normalizeText s)).map passTok := List.map_id _
    rw [hfirst, hsecond, htok]

/-- Claim C4 (corrected): normalize_phrase with the viewer's acronym set is
    idempotent on every phrase containing neither the character sequence
    "Co2" nor "Co₂"; the CO2 special-case rewrites break idempotence on
    phrases that do contain them (see the counterexample). -/
theorem C4_idempotent_away_from_co2 (s : Str)
    (h1 : occursIn (strL "Co2") s = false)
    (h2 : occursIn (strL "Co₂") s = false) :
    normalizePhrase (normalizePhrase s appAcronyms) appAcronyms =
      normalizePhrase s appAcronyms :=
  normalizePhrase_idem_aux s h1 h2

/-- Witness for C4 at a concrete phrase free of the Co2 sequences. -/
theorem C4_idempotent_witness :
    occursIn (strL "Co2") (strL "co2 capture and storage") = false ∧
    occursIn (strL "Co₂") (strL "co2 capture and storage") = false ∧
    normalizePhrase (normalizePhrase (strL "co2 capture and storage")
      appAcronyms) appAcronyms =
      normalizePhrase (strL "co2 capture and storage") appAcronyms :=
  ⟨by decide, by decide,
    C4_idempotent_away_from_co2 (strL "co2 capture and storage")
      (by decide) (by decide)⟩
